import Mathlib

/-!
Verification of the bayes-bridge numerical core against its specification.

The development shallowly embeds the two source files:

* `bayesbridge/model/cox_model.py` — Cox proportional-hazards partial
  likelihood with the O(n) risk-set cumulative-sum trick and the implicit
  hazard-probability matrix (`_HazardMultinomialProbMatrix`).
* `tilted_stable_dist/rand_exp_tilted_stable.py` — Hofert's double-rejection
  sampler for the exponentially tilted positive stable distribution.

Numpy arrays become Lean lists; float arithmetic becomes exact arithmetic in
a linearly ordered field (instantiated at `ℚ` for executable checks, at `ℝ`
when `exp`/`log`/`sin` are involved).  Event and censoring times, which the
source stores as floats with `inf` markers, become `WithTop ℚ`.  Fallible
construction (which raises `ValueError` in the source) becomes `Except`.
-/

namespace BayesBridge

/-! ## Numpy primitives

`np.cumsum` of a list is the list of partial sums, same length as the input.
-/
def np_cumsum {α : Type} [AddCommMonoid α] : List α → List α
  | [] => []
  | a :: rest => a :: (np_cumsum rest).map (a + ·)

def np_reverse_cumsum {α : Type} [AddCommMonoid α] (l : List α) : List α :=
  (np_cumsum l.reverse).reverse

/-! ## `CoxModel._sum_over_risk_set`

The O(n) forward/backward cumulative-sum computation from
`cox_model.py` lines 142-158:

    n_event = len(risk_set_end_index)
    sum_from_right_over_risk_set =
        np.cumsum(arr[(n_event - 1):])[risk_set_end_index - n_event + 1]
    sum_from_left_over_risk_set = np.concatenate((
        CoxModel.np_reverse_cumsum(arr[:(n_event - 1)]), [0]
    ))
    sum_over_risk_set =
        sum_from_right_over_risk_set + sum_from_left_over_risk_set

The numpy index `risk_set_end_index - n_event + 1` is modelled as the
natural number `r + 1 - n_event`; the two agree whenever
`n_event - 1 ≤ r`, which every theorem below assumes (numpy's negative-index
wrap-around for out-of-range states is not modelled).
-/
def sum_over_risk_set {α : Type} [AddCommMonoid α] (arr : List α)
    (risk_set_end_index : List ℕ) : List α :=
  let n_event := risk_set_end_index.length
  let sum_from_right := risk_set_end_index.map
    (fun r => (np_cumsum (arr.drop (n_event - 1))).getD (r + 1 - n_event) 0)
  let sum_from_left := np_reverse_cumsum (arr.take (n_event - 1)) ++ [0]
  List.zipWith (· + ·) sum_from_right sum_from_left

namespace ExpTiltedStableDist

/-! ## `ExpTiltedStableDist.sinc`

From `rand_exp_tilted_stable.py` lines 112-121:

    ax = abs(x)
    if ax < 0.006:
        if x == 0:
            return 1
        x2 = x * x
        if ax < 2e-4:
             return 1. - x2 / 6.
        return 1. - x2 / 6. * (1 - x2 / 20.)
    return sin(x) / x
-/
noncomputable def sinc (x : ℝ) : ℝ :=
  if |x| < 0.006 then
    if x = 0 then 1
    else if |x| < 2e-4 then 1 - x * x / 6
    else 1 - x * x / 6 * (1 - x * x / 20)
  else Real.sin x / x

end ExpTiltedStableDist

/-! ## The `CoxModel` constructor

Event and censoring times are floats with `inf` markers in the source; they
become `WithTop ℚ`, where `⊤` plays the role of `float('inf')`.
-/
abbrev Time := WithTop ℚ

namespace CoxModel

/-- `np.any(arr[:-1] > arr[1:])`: some adjacent pair is strictly decreasing. -/
def any_adjacent_decrease (l : List Time) : Bool :=
  (l.zip l.tail).any (fun p => decide (p.2 < p.1))

/-- `np.any(arr[:-1] < arr[1:])`: some adjacent pair is strictly increasing. -/
def any_adjacent_increase (l : List Time) : Bool :=
  (l.zip l.tail).any (fun p => decide (p.1 < p.2))

/-- `count_risk_set_appearance` (lines 95-106): for each individual `i`,
the number of finite event times `t` with `censoring_time[i] >= t` and
`event_time[i] >= t`. -/
def count_risk_set_appearance (e c : List Time) : List ℕ :=
  (e.zip c).map (fun p =>
    (e.filter (fun t => decide (t < ⊤))).countP
      (fun t => decide (t ≤ p.2) && decide (t ≤ p.1)))

/-- `n_event = len(event_time) - np.sum(np.isinf(event_time))` (line 41). -/
def n_event_init (e : List Time) : ℕ :=
  e.length - e.countP (fun t => decide (t = ⊤))

/-- `risk_set_end_index` (lines 45-47):
`[np.sum(t < censoring_time) - 1 for t in event_time[:n_event]]`,
with the numpy integer arithmetic carried out in `ℤ`. -/
def risk_set_end_index (e c : List Time) : List ℤ :=
  (e.take (n_event_init e)).map
    (fun t => (c.countP (fun s => decide (t < s)) : ℤ) - 1)

inductive CoxError : Type
  | unsorted_event_time : CoxError
  | unsorted_censoring_time : CoxError
  | empty_risk_set : CoxError
  | inconsistent_censoring : CoxError
deriving DecidableEq

structure CoxState : Type where
  n_event : ℕ
  event_time : List Time
  censoring_time : List Time
  n_appearance_in_risk_set : List ℕ
  risk_set_end_index : List ℤ
deriving DecidableEq

/-- `CoxModel.__init__` (lines 9-49): the three `ValueError` checks, then the
derived state. -/
def coxInit (e c : List Time) : Except CoxError CoxState :=
  if any_adjacent_decrease e then .error .unsorted_event_time
  else if any_adjacent_increase c then .error .unsorted_censoring_time
  else if !(count_risk_set_appearance e c).all (fun m => decide (1 ≤ m)) then
    .error .empty_risk_set
  else .ok
    { n_event := n_event_init e
      event_time := e
      censoring_time := c
      n_appearance_in_risk_set := count_risk_set_appearance e c
      risk_set_end_index := risk_set_end_index e c }

/-! ### `permute_observations_by_event_and_censoring_time` (lines 51-93)

`np.argsort` is modelled as a stable sort of the index list
`[0, ..., n-1]` by value; stability is expressed by ordering equal values
by index.  `np_rank_by_value` is `argsort(argsort(arr))` exactly as in the
source (`np.arange(n)[perm]` is `perm` itself). -/
def argsort {β : Type} [LinearOrder β] (d : β) (l : List β) : List ℕ :=
  List.insertionSort
    (fun i j => l.getD i d < l.getD j d ∨ (l.getD i d = l.getD j d ∧ i ≤ j))
    (List.range l.length)

def np_rank_by_value {β : Type} [LinearOrder β] (d : β) (arr : List β) : List ℕ :=
  argsort 0 (argsort d arr)

/-- `np.all(np.equal(event_time == inf, censoring_time < inf))`. -/
def censoring_consistent (e c : List Time) : Bool :=
  (e.zip c).all (fun p => decide (p.1 = ⊤) == decide (p.2 < ⊤))

def permute_observations {ξ : Type} [Inhabited ξ] (e c : List Time) (X : List ξ) :
    Except CoxError (List Time × List Time × List ξ) :=
  if !censoring_consistent e c then .error .inconsistent_censoring
  else
    let n_event := e.countP (fun t => decide (t < ⊤))
    let sort_ind := (argsort 0 (np_rank_by_value ⊤ e)).take n_event ++
      (argsort (0 : ℤ) ((np_rank_by_value ⊤ c).map (fun r : ℕ => -(r : ℤ)))).drop n_event
    .ok (sort_ind.map (fun i => e.getD i ⊤), sort_ind.map (fun i => c.getD i ⊤),
      sort_ind.map (fun i => X.getD i default))

/-! ### `compute_loglik_and_gradient` (lines 108-140, 164-171)

The linear predictor `η = X.dot(beta)` is taken as the input; the design
matrix enters only through its abstract `Tdot` operation, exactly as in the
source (`grad = self.X.Tdot(v)`). -/
/-- `np.max` of a list of reals (meaningful for nonempty input, as in the
source, where `np.max` raises on an empty array). -/
noncomputable def listMax (l : List ℝ) : ℝ := l.foldr max (l.headD 0)

/-- `_shift_log_hazard` with the default `log_offset = 0`:
`log_hazard_rate += 0 - np.max(log_hazard_rate)`. -/
noncomputable def shift_log_hazard (l : List ℝ) : List ℝ :=
  l.map (fun x => x + (0 - listMax l))

/-- `_HazardMultinomialProbMatrix.sum_over_events` (lines 241-252). -/
def sum_over_events {α : Type} [Field α] (h s : List α) (rsei nap : List ℕ) :
    List α :=
  let nc := np_cumsum (s.map (fun x => x⁻¹))
  let row_sum := List.zipWith (fun (m : ℕ) hi => nc.getD (m - 1) 0 * hi) nap h
  if rsei.getD 0 0 + 1 < h.length then
    row_sum.take (rsei.getD 0 0 + 1)
      ++ List.replicate (h.length - (rsei.getD 0 0 + 1)) 0
  else row_sum

/-- `_HazardMultinomialProbMatrix.dot` (lines 254-257):
`sum_over_risk_set ** -1 * CoxModel._sum_over_risk_set(hazard_increase * v,
risk_set_end_index)`. -/
def hm_dot {α : Type} [Field α] (h s : List α) (rsei : List ℕ) (v : List α) :
    List α :=
  List.zipWith (fun sk t => sk⁻¹ * t) s
    (sum_over_risk_set (List.zipWith (· * ·) h v) rsei)

/-- `_HazardMultinomialProbMatrix.Tdot` (lines 259-262):
`hazard_increase * np.cumsum(sum_over_risk_set ** -1 * v)[nap - 1]`. -/
def hm_Tdot {α : Type} [Field α] (h s : List α) (nap : List ℕ) (u : List α) :
    List α :=
  let pip := np_cumsum (List.zipWith (fun sk uk => sk⁻¹ * uk) s u)
  List.zipWith (fun hi (m : ℕ) => hi * pip.getD (m - 1) 0) h nap

/-- `row[j0:] = 0` for one row of the dense matrix. -/
def zeroRowCols {α : Type} [Field α] (r : List α) (j0 : ℕ) : List α :=
  r.take j0 ++ List.replicate (r.length - j0) 0

/-- The `for i in range(1, shape[0] + 1)` loop of `compute_matrix`
(lines 270-273), processing rows from the bottom and stopping at the first
row whose risk set reaches the last column.  The rows and index list are
passed reversed. -/
def hm_zero_rev {α : Type} [Field α] (n : ℕ) :
    List (List α) → List ℕ → List (List α)
  | [], _ => []
  | rows, [] => rows
  | r :: rest, i :: idxs =>
    if n ≤ i + 1 then r :: rest
    else zeroRowCols r (i + 1) :: hm_zero_rev n rest idxs

/-- `_HazardMultinomialProbMatrix.compute_matrix` (lines 264-275):
`np.triu(np.outer(sum_over_risk_set ** -1, hazard_increase))` followed by the
bottom-up zeroing loop. -/
def hm_compute_matrix {α : Type} [Field α] (h s : List α) (rsei : List ℕ) :
    List (List α) :=
  let base := (List.range s.length).map (fun k =>
    (List.range h.length).map
      (fun j => if k ≤ j then (s.getD k 0)⁻¹ * h.getD j 0 else 0))
  (hm_zero_rev h.length base.reverse rsei.reverse).reverse

/-- `M · v` on the explicit matrix. -/
def matVec {α : Type} [Field α] (M : List (List α)) (v : List α) : List α :=
  M.map (fun r => (List.zipWith (· * ·) r v).sum)

/-- `Mᵗ · u` on the explicit matrix (`n` columns). -/
def matTVec {α : Type} [Field α] (M : List (List α)) (u : List α) (n : ℕ) :
    List α :=
  (List.range n).map (fun j =>
    (List.zipWith (fun r uk => r.getD j 0 * uk) M u).sum)

/-- Column sums of the explicit matrix (`n` columns). -/
def colSums {α : Type} [Field α] (M : List (List α)) (n : ℕ) : List α :=
  (List.range n).map (fun j => (M.map (fun r => r.getD j 0)).sum)

/-- The log-likelihood
`np.sum(log_hazard_increase[:n_event] - np.log(sum_over_risk_set))`. -/
noncomputable def coxLogLik (η : List ℝ) (rsei : List ℕ) : ℝ :=
  let lh := shift_log_hazard η
  let h := lh.map Real.exp
  let s := sum_over_risk_set h rsei
  (List.zipWith (fun a b => a - Real.log b) (lh.take rsei.length) s).sum

/-- The vector `v` with `v[:n_event] = 1`, `v[n_event:] = 0`, minus
`hazard_matrix.sum_over_events()`; the gradient is `X.Tdot` of this. -/
noncomputable def coxGradVector (η : List ℝ) (rsei nap : List ℕ) : List ℝ :=
  let lh := shift_log_hazard η
  let h := lh.map Real.exp
  let s := sum_over_risk_set h rsei
  List.zipWith (fun a b => a - b)
    (List.replicate rsei.length (1 : ℝ)
      ++ List.replicate (η.length - rsei.length) 0)
    (sum_over_events h s rsei nap)

noncomputable def compute_loglik_and_gradient (Tdot : List ℝ → List ℝ)
    (η : List ℝ) (rsei nap : List ℕ) : ℝ × List ℝ :=
  (coxLogLik η rsei, Tdot (coxGradVector η rsei nap))

instance exceptDecidableEq {ε σ : Type} [DecidableEq ε] [DecidableEq σ] :
    DecidableEq (Except ε σ) := fun a b =>
  match a, b with
  | .error x, .error y =>
      if h : x = y then .isTrue (congrArg Except.error h)
      else .isFalse fun hc => h (Except.error.inj hc)
  | .error _, .ok _ => .isFalse fun hc => Except.noConfusion hc
  | .ok _, .error _ => .isFalse fun hc => Except.noConfusion hc
  | .ok x, .ok y =>
      if h : x = y then .isTrue (congrArg Except.ok h)
      else .isFalse fun hc => h (Except.ok.inj hc)

end CoxModel

namespace ExpTiltedStableDist

/-! ## `ExpTiltedStableDist.rv` (lines 13-100)

The sampler is embedded over `ℝ` with the two random sources as explicit
streams `unif, normal : ℕ → ℝ` consumed at increasing indices, and Python's
float arithmetic exceptions made explicit:

* float division and `0.0 ** negative` raise `ZeroDivisionError`;
* `math.sqrt` of a negative float raises a `ValueError` (math domain error);
* `negative ** non-integer` yields a `complex`, which `math.sqrt` rejects
  with a `TypeError` on the immediately following line (`sqrt(gamma)`).

The unbounded `while` loops are given explicit fuel; the claims below concern
the precomputation of constants and the control flow of the two nested
acceptance loops, which are independent of the fuel. -/
inductive PyError : Type
  | divisionByZero : PyError
  | mathDomainError : PyError
  | complexToFloat : PyError
deriving DecidableEq

/-- A Python float computation that may have silently produced a non-real
complex value (`float ** float` with negative base and fractional exponent). -/
inductive PyVal : Type
  | real : ℝ → PyVal
  | complex : PyVal

noncomputable def pyDiv (a b : ℝ) : Except PyError ℝ :=
  if b = 0 then .error .divisionByZero else .ok (a / b)

/-- Python `x ** y` for floats. -/
noncomputable def pyPow (x y : ℝ) : Except PyError PyVal :=
  if 0 < x then .ok (.real (x ^ y))
  else if x = 0 then
    if 0 < y then .ok (.real 0)
    else if y = 0 then .ok (.real 1)
    else .error .divisionByZero
  else if (⌊y⌋ : ℝ) = y then .ok (.real (x ^ ⌊y⌋)) else .ok .complex

/-- `math.sqrt` on the result of a preceding float computation. -/
noncomputable def pySqrt (v : PyVal) : Except PyError ℝ :=
  match v with
  | .complex => .error .complexToFloat
  | .real x => if x < 0 then .error .mathDomainError else .ok (Real.sqrt x)

/-- The constants precomputed by `rv` before its rejection loops
(lines 25-36). -/
structure Consts : Type where
  b : ℝ
  lam_alpha : ℝ
  gamma : ℝ
  sqrt_gamma : ℝ
  c1 : ℝ
  c2 : ℝ
  c3 : ℝ
  xi : ℝ
  psi : ℝ
  w1 : ℝ
  w2 : ℝ
  w3 : ℝ

/-- Lines 25-36 of `rv`, with each fallible float operation checked.  A
complex `lam ** alpha` is reported at the `sqrt(gamma)` call that
immediately follows it, as in Python. -/
noncomputable def precompute (alpha lam : ℝ) : Except PyError Consts :=
  match pyDiv (1 - alpha) alpha with
  | .error e => .error e
  | .ok b =>
    match pyPow lam alpha with
    | .error e => .error e
    | .ok .complex => .error .complexToFloat
    | .ok (.real lam_alpha) =>
      let gamma := lam_alpha * alpha * (1 - alpha)
      match pySqrt (.real gamma) with
      | .error e => .error e
      | .ok sqrt_gamma =>
        let c1 := Real.sqrt (Real.pi / 2)
        let c2 := 2 + c1
        let c3 := c2 * sqrt_gamma
        let xi := (1 + Real.sqrt 2 * c3) / Real.pi
        let psi := c3 * Real.exp (-(gamma * Real.pi * Real.pi) / 8)
          / Real.sqrt Real.pi
        match pyDiv (c1 * xi) sqrt_gamma with
        | .error e => .error e
        | .ok w1 =>
          let w2 := 2 * Real.sqrt Real.pi * psi
          let w3 := xi * Real.pi
          .ok ⟨b, lam_alpha, gamma, sqrt_gamma, c1, c2, c3, xi, psi, w1, w2, w3⟩

noncomputable def BdB0 (x alpha : ℝ) : ℝ :=
  sinc x / (sinc (alpha * x) ^ alpha * sinc ((1 - alpha) * x) ^ (1 - alpha))

noncomputable def A_3 (x alpha : ℝ) : ℝ :=
  ((1 - alpha) * sinc ((1 - alpha) * x)) ^ (1 - alpha)
    * (alpha * sinc (alpha * x)) ^ alpha / sinc x

/-- The mutable state of `rv`'s loops: the positions in the two random
streams, the `aug_accepted` flag, and the auxiliary quantities `U`, `z`, `Z`
produced by the inner loop. -/
structure LoopState : Type where
  uIdx : ℕ
  nIdx : ℕ
  aug_accepted : Bool
  U : ℝ
  z : ℝ
  Z : ℝ

open Classical in
/-- One iteration of the inner `while not aug_accepted` body (lines 42-70). -/
noncomputable def inner_step (alpha : ℝ) (K : Consts) (unif normal : ℕ → ℝ)
    (s : LoopState) : LoopState :=
  let V1 := unif s.uIdx
  let t : ℝ × ℕ × ℕ :=
    if 1 ≤ K.gamma then
      if V1 < K.w1 / (K.w1 + K.w2) then
        (|normal s.nIdx| / K.sqrt_gamma, s.uIdx + 1, s.nIdx + 1)
      else
        (Real.pi * (1 - unif (s.uIdx + 1) * unif (s.uIdx + 1)), s.uIdx + 2, s.nIdx)
    else
      if V1 < K.w3 / (K.w2 + K.w3) then
        (Real.pi * unif (s.uIdx + 1), s.uIdx + 2, s.nIdx)
      else
        (Real.pi * (1 - unif (s.uIdx + 1) * unif (s.uIdx + 1)), s.uIdx + 2, s.nIdx)
  let U := t.1
  let uIdx1 := t.2.1
  let nIdx1 := t.2.2
  let W2 := unif uIdx1
  let zeta := Real.sqrt (BdB0 U alpha)
  let z := 1 / (1 - (1 + alpha * zeta / K.sqrt_gamma) ^ (-1 / alpha))
  let rho0 := Real.pi * Real.exp (-K.lam_alpha * (1 - 1 / (zeta * zeta)))
    / ((1 + K.c1) * K.sqrt_gamma / zeta + z)
  let d := (if 0 ≤ U ∧ 1 ≤ K.gamma then K.xi * Real.exp (-(K.gamma * U * U / 2)) else 0)
    + (if 0 < U ∧ U < Real.pi then K.psi / Real.sqrt (Real.pi - U) else 0)
    + (if 0 ≤ U ∧ U ≤ Real.pi ∧ K.gamma < 1 then K.xi else 0)
  let rho := rho0 * d
  let Z := W2 * rho
  { uIdx := uIdx1 + 1, nIdx := nIdx1,
    aug_accepted := decide (U < Real.pi ∧ Z ≤ 1), U := U, z := z, Z := Z }

/-- The inner `while not aug_accepted` loop, with fuel.  The loop guard is
tested against the state's `aug_accepted` flag, which `rv` initializes once,
before the **outer** loop. -/
noncomputable def inner_loop (alpha : ℝ) (K : Consts) (unif normal : ℕ → ℝ) :
    ℕ → LoopState → LoopState
  | 0, s => s
  | fuel + 1, s =>
    if s.aug_accepted then s
    else inner_loop alpha K unif normal fuel (inner_step alpha K unif normal s)

structure OuterResult : Type where
  state : LoopState
  X : ℝ
  accepted : Bool

open Classical in
/-- One iteration of the outer `while not accepted` body (lines 42-98):
run the inner loop, then draw and test a candidate `X` from the accepted
auxiliary state. -/
noncomputable def outer_step (alpha b : ℝ) (K : Consts) (unif normal : ℕ → ℝ)
    (fuel : ℕ) (s : LoopState) : OuterResult :=
  let s1 := inner_loop alpha K unif normal fuel s
  let a := (A_3 s1.U alpha) ^ (1 / (1 - alpha))
  let m := (b / a) ^ alpha * K.lam_alpha
  let delta := Real.sqrt (m * alpha / a)
  let a1 := delta * K.c1
  let a3 := s1.z / a
  let sw := a1 + delta + a3
  let V2 := unif s1.uIdx
  let t : ℝ × ℝ × ℝ × ℕ × ℕ :=
    if V2 < a1 / sw then
      (m - delta * |normal s1.nIdx|, normal s1.nIdx, 0, s1.uIdx + 1, s1.nIdx + 1)
    else if V2 < (a1 + delta) / sw then
      (m + delta * unif (s1.uIdx + 1), 0, 0, s1.uIdx + 2, s1.nIdx)
    else
      (m + delta + (-Real.log (unif (s1.uIdx + 1))) * a3, 0,
        -Real.log (unif (s1.uIdx + 1)), s1.uIdx + 2, s1.nIdx)
  let X := t.1
  let N := t.2.1
  let E1 := t.2.2.1
  let uIdx2 := t.2.2.2.1
  let nIdx2 := t.2.2.2.2
  let E2 := -Real.log s1.Z
  let c := a * (X - m)
    + Real.exp ((1 / alpha) * Real.log K.lam_alpha - b * Real.log m)
      * ((m / X) ^ b - 1)
    - (if X < m then N * N / 2 else 0)
    - (if m + delta < X then E1 else 0)
  { state := { s1 with uIdx := uIdx2, nIdx := nIdx2 },
    X := X,
    accepted := decide (0 ≤ X ∧ c ≤ E2) }

/-- The outer `while not accepted` loop with fuel, returning
`X ** (-b)` on acceptance. -/
noncomputable def rv_loop (alpha b : ℝ) (K : Consts) (unif normal : ℕ → ℝ) :
    ℕ → LoopState → Option ℝ
  | 0, _ => none
  | fuel + 1, s =>
    let r := outer_step alpha b K unif normal (fuel + 1) s
    if r.accepted then some (r.X ^ (-b))
    else rv_loop alpha b K unif normal fuel r.state

/-- `rv(alpha, lam)`: precompute the constants, then run the double
rejection loop from the initial state (`accepted = aug_accepted = False`). -/
noncomputable def rv (alpha lam : ℝ) (unif normal : ℕ → ℝ) (fuel : ℕ) :
    Except PyError (Option ℝ) :=
  match precompute alpha lam with
  | .error e => .error e
  | .ok K => .ok (rv_loop alpha K.b K unif normal fuel ⟨0, 0, false, 0, 0, 0⟩)

end ExpTiltedStableDist

@[simp] theorem length_np_cumsum {α : Type} [AddCommMonoid α] (l : List α) :
    (np_cumsum l).length = l.length := by
  induction l with
  | nil => rfl
  | cons a rest ih => simp [np_cumsum, ih]

theorem getD_np_cumsum {α : Type} [AddCommMonoid α] (l : List α) (i : ℕ)
    (h : i < l.length) : (np_cumsum l).getD i 0 = (l.take (i + 1)).sum := by
  induction l generalizing i with
  | nil => simp at h
  | cons a rest ih =>
    cases i with
    | zero => simp [np_cumsum]
    | succ j =>
      have hj : j < rest.length := by simpa using h
      have hlen : j < ((np_cumsum rest).map (a + ·)).length := by simpa using hj
      have hlen' : j < (np_cumsum rest).length := by simpa using hj
      simp only [np_cumsum, List.getD_cons_succ, List.take_succ_cons, List.sum_cons]
      rw [List.getD_eq_getElem _ _ hlen, List.getElem_map,
        ← List.getD_eq_getElem _ 0 hlen', ih j hj]

/-- The sum of `l.take b` as a `Finset.range` sum of padded entries
(`getD` with default `0`); valid for arbitrary `b`. -/
theorem sum_take_eq_range_sum {α : Type} [AddCommMonoid α] (l : List α) (b : ℕ) :
    (l.take b).sum = ∑ i ∈ Finset.range b, l.getD i 0 := by
  induction l generalizing b with
  | nil => simp
  | cons a rest ih =>
    cases b with
    | zero => simp
    | succ b' =>
      rw [List.take_succ_cons, List.sum_cons, ih b', Finset.sum_range_succ']
      simp [add_comm]

theorem getD_drop {α : Type} (l : List α) (a i : ℕ) (d : α) :
    (l.drop a).getD i d = l.getD (a + i) d := by
  by_cases h : a + i < l.length
  · have h1 : i < (l.drop a).length := by
      simp only [List.length_drop]
      omega
    rw [List.getD_eq_getElem _ _ h1, List.getD_eq_getElem _ _ h, List.getElem_drop]
  · have h1 : (l.drop a).length ≤ i := by
      simp only [List.length_drop]
      omega
    rw [List.getD_eq_default _ _ h1, List.getD_eq_default _ _ (by omega)]

/-- The sum of `(l.drop a).take b` is the padded sum over `[a, a + b)`. -/
theorem sum_drop_take {α : Type} [AddCommMonoid α] (l : List α) (a b : ℕ) :
    ((l.drop a).take b).sum = ∑ i ∈ Finset.Ico a (a + b), l.getD i 0 := by
  rw [sum_take_eq_range_sum, Finset.sum_Ico_eq_sum_range]
  simp only [Nat.add_sub_cancel_left]
  exact Finset.sum_congr rfl fun i _ => getD_drop l a i 0

@[simp] theorem length_np_reverse_cumsum {α : Type} [AddCommMonoid α] (l : List α) :
    (np_reverse_cumsum l).length = l.length := by
  simp [np_reverse_cumsum]

theorem getD_np_reverse_cumsum {α : Type} [AddCommMonoid α] (l : List α) (i : ℕ)
    (h : i < l.length) : (np_reverse_cumsum l).getD i 0 = (l.drop i).sum := by
  have hrl : (np_cumsum l.reverse).length = l.length := by simp
  have h1 : i < (np_cumsum l.reverse).reverse.length := by simpa [hrl]
  rw [np_reverse_cumsum, List.getD_eq_getElem _ _ h1, List.getElem_reverse,
    ← List.getD_eq_getElem _ 0 (by simp; omega : (np_cumsum l.reverse).length - 1 - i
      < (np_cumsum l.reverse).length),
    getD_np_cumsum _ _ (by simp; omega)]
  have harith : l.length - 1 - i + 1 = l.length - i := by omega
  rw [hrl, harith, List.take_reverse, Nat.sub_sub_self (Nat.le_of_lt h),
    List.sum_reverse]

theorem getD_zipWith' {α β γ : Type} (f : α → β → γ) (l1 : List α) (l2 : List β)
    (i : ℕ) (d1 : α) (d2 : β) (d3 : γ) (h1 : i < l1.length) (h2 : i < l2.length) :
    (List.zipWith f l1 l2).getD i d3 = f (l1.getD i d1) (l2.getD i d2) := by
  have h3 : i < (List.zipWith f l1 l2).length := by
    rw [List.length_zipWith]
    omega
  rw [List.getD_eq_getElem _ _ h3, List.getD_eq_getElem _ _ h1,
    List.getD_eq_getElem _ _ h2, List.getElem_zipWith]

theorem getD_map' {α β : Type} (f : α → β) (l : List α) (i : ℕ) (d1 : α) (d2 : β)
    (h : i < l.length) : (l.map f).getD i d2 = f (l.getD i d1) := by
  have h2 : i < (l.map f).length := by simpa using h
  rw [List.getD_eq_getElem _ _ h2, List.getElem_map, ← List.getD_eq_getElem _ d1 h]

theorem getD_take' {α : Type} (l : List α) (m i : ℕ) (d : α) (h : i < m)
    (h2 : i < l.length) : (l.take m).getD i d = l.getD i d := by
  have h3 : i < (l.take m).length := by
    rw [List.length_take]
    omega
  rw [List.getD_eq_getElem _ _ h3, List.getElem_take, ← List.getD_eq_getElem _ d h2]

theorem sum_drop {α : Type} [AddCommMonoid α] (l : List α) (a : ℕ)
    (h : a ≤ l.length) : (l.drop a).sum = ∑ i ∈ Finset.Ico a l.length, l.getD i 0 := by
  have h1 : (l.drop a).take (l.length - a) = l.drop a := by
    rw [show l.length - a = (l.drop a).length by rw [List.length_drop],
      List.take_length]
  calc (l.drop a).sum = ((l.drop a).take (l.length - a)).sum := by rw [h1]
    _ = ∑ i ∈ Finset.Ico a (a + (l.length - a)), l.getD i 0 := sum_drop_take l a _
    _ = ∑ i ∈ Finset.Ico a l.length, l.getD i 0 := by
        rw [Nat.add_sub_cancel' h]

/-- The k-th entry of `sum_over_risk_set` is the inclusive sum
`∑_{i=k}^{rsei[k]} arr[i]`, provided `n_event - 1 ≤ rsei[k] ≤ n - 1`. -/
theorem getD_sum_over_risk_set {α : Type} [AddCommMonoid α] (arr : List α)
    (rsei : List ℕ) (k : ℕ) (hk : k < rsei.length)
    (hlo : rsei.length ≤ rsei.getD k 0 + 1) (hhi : rsei.getD k 0 + 1 ≤ arr.length) :
    (sum_over_risk_set arr rsei).getD k 0
      = ∑ i ∈ Finset.Icc k (rsei.getD k 0), arr.getD i 0 := by
  set ne := rsei.length with hne
  set r := rsei.getD k 0 with hr
  have hne1 : 1 ≤ ne := by omega
  have hnele : ne - 1 ≤ arr.length := by omega
  have hlen_sfl : (np_reverse_cumsum (arr.take (ne - 1)) ++ [(0 : α)]).length = ne := by
    simp only [List.length_append, length_np_reverse_cumsum, List.length_take,
      List.length_cons, List.length_nil]
    omega
  have hlen_sfr : (rsei.map
      (fun r => (np_cumsum (arr.drop (ne - 1))).getD (r + 1 - ne) 0)).length = ne := by
    simp [hne]
  rw [sum_over_risk_set]
  rw [getD_zipWith' _ _ _ k 0 0 0 (by rw [hlen_sfr]; omega) (by rw [hlen_sfl]; omega)]
  -- the right (tail) part
  have hright : (rsei.map
      (fun r => (np_cumsum (arr.drop (ne - 1))).getD (r + 1 - ne) 0)).getD k 0
      = ∑ i ∈ Finset.Ico (ne - 1) (r + 1), arr.getD i 0 := by
    rw [getD_map' _ _ _ 0 _ hk, ← hr]
    have hidx : r + 1 - ne < (arr.drop (ne - 1)).length := by
      rw [List.length_drop]
      omega
    rw [getD_np_cumsum _ _ hidx, sum_drop_take]
    have : ne - 1 + (r + 1 - ne + 1) = r + 1 := by omega
    rw [this]
  -- the left (head) part
  have hleft : (np_reverse_cumsum (arr.take (ne - 1)) ++ [(0 : α)]).getD k 0
      = ∑ i ∈ Finset.Ico k (ne - 1), arr.getD i 0 := by
    rcases Nat.lt_or_ge k (ne - 1) with hcase | hcase
    · have hk2 : k < (np_reverse_cumsum (arr.take (ne - 1))).length := by
        rw [length_np_reverse_cumsum, List.length_take]
        omega
      rw [List.getD_append _ _ _ _ hk2, getD_np_reverse_cumsum _ _ (by
        rw [List.length_take]; omega)]
      rw [sum_drop _ _ (by rw [List.length_take]; omega)]
      have htl : (arr.take (ne - 1)).length = ne - 1 := by
        rw [List.length_take]
        omega
      rw [htl]
      refine Finset.sum_congr rfl fun i hi => ?_
      rw [Finset.mem_Ico] at hi
      exact getD_take' arr (ne - 1) i 0 hi.2 (by omega)
    · have hkeq : k = ne - 1 := by omega
      have hk2 : (np_reverse_cumsum (arr.take (ne - 1))).length ≤ k := by
        rw [length_np_reverse_cumsum, List.length_take]
        omega
      rw [List.getD_append_right _ _ _ _ hk2]
      have hlen2 : (np_reverse_cumsum (arr.take (ne - 1))).length = ne - 1 := by
        rw [length_np_reverse_cumsum, List.length_take]
        omega
      rw [hlen2, hkeq, Nat.sub_self]
      simp [Finset.Ico_self]
  rw [hright, hleft, add_comm, Finset.sum_Ico_consecutive _ (by omega) (by omega),
    Nat.Ico_succ_right]

/-- C2: for every array `arr` of length `n` and every index array
`risk_set_end_index` of length `n_event` with
`n_event - 1 ≤ risk_set_end_index[k] ≤ n - 1` for all `k`, the `k`-th entry of
`_sum_over_risk_set(arr, risk_set_end_index)`, computed via one forward and one
reverse cumulative sum, equals the brute-force inclusive sum of `arr[i]` for
`i` from `k` to `risk_set_end_index[k]`.  (The bounds are stated in the
subtraction-free form `n_event ≤ r + 1` and `r + 1 ≤ n`.) -/
theorem sum_over_risk_set_eq_brute_force (arr : List ℚ) (rsei : List ℕ)
    (hbound : ∀ k, k < rsei.length →
      rsei.length ≤ rsei.getD k 0 + 1 ∧ rsei.getD k 0 + 1 ≤ arr.length)
    (k : ℕ) (hk : k < rsei.length) :
    (sum_over_risk_set arr rsei).getD k 0
      = ∑ i ∈ Finset.Icc k (rsei.getD k 0), arr.getD i 0 :=
  getD_sum_over_risk_set arr rsei k hk (hbound k hk).1 (hbound k hk).2

theorem sum_over_risk_set_eq_brute_force_witness :
    (∀ k, k < [(2 : ℕ), 3].length →
      [(2 : ℕ), 3].length ≤ [(2 : ℕ), 3].getD k 0 + 1 ∧
        [(2 : ℕ), 3].getD k 0 + 1 ≤ [(1 : ℚ), 2, 3, 5].length) ∧
    (0 : ℕ) < [(2 : ℕ), 3].length ∧
    (sum_over_risk_set [(1 : ℚ), 2, 3, 5] [2, 3]).getD 0 0
      = ∑ i ∈ Finset.Icc 0 ([(2 : ℕ), 3].getD 0 0), [(1 : ℚ), 2, 3, 5].getD i 0 :=
  ⟨by decide, by decide,
    sum_over_risk_set_eq_brute_force [(1 : ℚ), 2, 3, 5] [2, 3] (by decide) 0
      (by decide)⟩

open ExpTiltedStableDist in
/-- C8: `sinc(0)` returns exactly `1`; for `0 < |x| < 2e-4` it returns the
Taylor value `1 - x²/6`; for `2e-4 ≤ |x| < 0.006` it returns the higher-order
Taylor value `1 - (x²/6)(1 - x²/20)`; and for `|x| ≥ 0.006` it returns
`sin(x)/x`. -/
theorem sinc_branches :
    sinc 0 = 1 ∧
    (∀ x : ℝ, 0 < |x| → |x| < 2e-4 → sinc x = 1 - x * x / 6) ∧
    (∀ x : ℝ, 2e-4 ≤ |x| → |x| < 0.006 →
      sinc x = 1 - x * x / 6 * (1 - x * x / 20)) ∧
    (∀ x : ℝ, 0.006 ≤ |x| → sinc x = Real.sin x / x) := by
  refine ⟨by norm_num [sinc], ?_, ?_, ?_⟩
  · intro x h0 h1
    have hx : x ≠ 0 := abs_pos.mp h0
    have h2 : |x| < 0.006 := lt_trans h1 (by norm_num)
    rw [sinc, if_pos h2, if_neg hx, if_pos h1]
  · intro x h1 h2
    have hx : x ≠ 0 := by
      intro h
      rw [h, abs_zero] at h1
      norm_num at h1
    rw [sinc, if_pos h2, if_neg hx, if_neg (not_lt.mpr h1)]
  · intro x h
    rw [sinc, if_neg (not_lt.mpr h)]

open ExpTiltedStableDist in
theorem sinc_branches_witness :
    ((0 : ℝ) < |(1e-4 : ℝ)| ∧ |(1e-4 : ℝ)| < 2e-4 ∧
      sinc 1e-4 = 1 - 1e-4 * 1e-4 / 6) ∧
    ((2e-4 : ℝ) ≤ |(1e-3 : ℝ)| ∧ |(1e-3 : ℝ)| < 0.006 ∧
      sinc 1e-3 = 1 - 1e-3 * 1e-3 / 6 * (1 - 1e-3 * 1e-3 / 20)) ∧
    ((0.006 : ℝ) ≤ |(1 : ℝ)| ∧ sinc 1 = Real.sin 1 / 1) :=
  ⟨⟨by norm_num, by rw [abs_of_pos] <;> norm_num,
      sinc_branches.2.1 _ (by norm_num) (by rw [abs_of_pos] <;> norm_num)⟩,
    ⟨by rw [abs_of_pos] <;> norm_num, by rw [abs_of_pos] <;> norm_num,
      sinc_branches.2.2.1 _ (by rw [abs_of_pos] <;> norm_num)
        (by rw [abs_of_pos] <;> norm_num)⟩,
    ⟨by norm_num, sinc_branches.2.2.2 _ (by norm_num)⟩⟩

namespace CoxModel

theorem coxInit_ok_iff (e c : List Time) (st : CoxState) :
    coxInit e c = .ok st ↔
      any_adjacent_decrease e = false ∧ any_adjacent_increase c = false ∧
      (count_risk_set_appearance e c).all (fun m => decide (1 ≤ m)) = true ∧
      st = { n_event := n_event_init e
             event_time := e
             censoring_time := c
             n_appearance_in_risk_set := count_risk_set_appearance e c
             risk_set_end_index := risk_set_end_index e c } := by
  constructor
  · intro h
    rw [coxInit] at h
    by_cases h1 : any_adjacent_decrease e
    · rw [if_pos h1] at h
      exact absurd h (by simp)
    · rw [if_neg h1] at h
      by_cases h2 : any_adjacent_increase c
      · rw [if_pos h2] at h
        exact absurd h (by simp)
      · rw [if_neg h2] at h
        by_cases h3 : (count_risk_set_appearance e c).all (fun m => decide (1 ≤ m))
        · rw [if_neg (by simp [h3])] at h
          refine ⟨by simpa using h1, by simpa using h2, h3, ?_⟩
          exact (Except.ok.inj h).symm
        · rw [if_pos (by simpa using h3)] at h
          exact absurd h (by simp)
  · rintro ⟨h1, h2, h3, rfl⟩
    rw [coxInit, if_neg (by simp [h1]), if_neg (by simp [h2]),
      if_neg (by simp [h3])]

theorem any_adjacent_decrease_eq_false (l : List Time) :
    any_adjacent_decrease l = false ↔ l.Chain' (· ≤ ·) := by
  rw [any_adjacent_decrease, List.any_eq_false, List.chain'_iff_get]
  constructor
  · intro h i hi
    have hzip : i < (l.zip l.tail).length := by
      rw [List.length_zip, List.length_tail]
      omega
    have hmem := List.getElem_mem hzip
    have := h _ hmem
    rw [List.getElem_zip, List.getElem_tail] at this
    simp only [decide_eq_true_eq] at this
    simpa [List.get_eq_getElem] using not_lt.mp this
  · intro h p hp
    rw [List.mem_iff_getElem] at hp
    obtain ⟨i, hi, rfl⟩ := hp
    have hi2 : i < l.length - 1 := by
      have := hi
      rw [List.length_zip, List.length_tail] at this
      omega
    have := h i hi2
    rw [List.getElem_zip, List.getElem_tail]
    simp only [List.get_eq_getElem] at this
    simpa using not_lt.mpr this

theorem any_adjacent_increase_eq_false (l : List Time) :
    any_adjacent_increase l = false ↔ l.Chain' (fun a b => b ≤ a) := by
  rw [any_adjacent_increase, List.any_eq_false, List.chain'_iff_get]
  constructor
  · intro h i hi
    have hzip : i < (l.zip l.tail).length := by
      rw [List.length_zip, List.length_tail]
      omega
    have hmem := List.getElem_mem hzip
    have := h _ hmem
    rw [List.getElem_zip, List.getElem_tail] at this
    simp only [decide_eq_true_eq] at this
    simpa [List.get_eq_getElem] using not_lt.mp this
  · intro h p hp
    rw [List.mem_iff_getElem] at hp
    obtain ⟨i, hi, rfl⟩ := hp
    have hi2 : i < l.length - 1 := by
      have := hi
      rw [List.length_zip, List.length_tail] at this
      omega
    have := h i hi2
    rw [List.getElem_zip, List.getElem_tail]
    simp only [List.get_eq_getElem] at this
    simpa using not_lt.mpr this

/-- On an `R`-sorted list, a predicate that propagates backwards along `R`
holds exactly on the first `countP` positions. -/
theorem pairwise_getD_countP {β : Type} (R : β → β → Prop) (l : List β)
    (p : β → Bool) (d : β) (hsort : l.Pairwise R)
    (hdc : ∀ a b : β, R a b → p b = true → p a = true) :
    (∀ i, i < l.countP p → p (l.getD i d) = true) ∧
    (∀ i, i < l.length → l.countP p ≤ i → p (l.getD i d) = false) := by
  induction l with
  | nil => exact ⟨fun i hi => by simp [List.countP_nil] at hi, fun i hi => by simp at hi⟩
  | cons x t ih =>
    rw [List.pairwise_cons] at hsort
    obtain ⟨hxle, hsort'⟩ := hsort
    obtain ⟨ih1, ih2⟩ := ih hsort'
    by_cases hp : p x = true
    · rw [List.countP_cons_of_pos _ _ hp]
      constructor
      · intro i hi
        cases i with
        | zero => simpa using hp
        | succ j =>
          rw [List.getD_cons_succ]
          exact ih1 j (by omega)
      · intro i hi hcnt
        cases i with
        | zero => omega
        | succ j =>
          rw [List.getD_cons_succ]
          exact ih2 j (by simpa using hi) (by omega)
    · have htz : t.countP p = 0 := by
        rw [List.countP_eq_zero]
        intro a ha hpa
        exact hp (hdc x a (hxle a ha) hpa)
      rw [List.countP_cons_of_neg _ _ hp, htz]
      have hpx : p x = false := by
        revert hp
        cases p x <;> simp
      refine ⟨fun i hi => by omega, fun i hi _ => ?_⟩
      cases i with
      | zero =>
        rw [List.getD_cons_zero]
        exact hpx
      | succ j =>
        rw [List.getD_cons_succ]
        have hj : j < t.length := by simpa using hi
        have hmem := (List.countP_eq_zero.mp htz) _ (List.getElem_mem hj)
        rw [List.getD_eq_getElem _ _ hj]
        revert hmem
        cases p t[j] <;> simp

theorem n_event_init_eq_countP (e : List Time) :
    n_event_init e = e.countP (fun t => decide (t < ⊤)) := by
  rw [n_event_init]
  have hsplit := List.length_eq_countP_add_countP (fun t : Time => decide (t = ⊤)) e
  have hcong : e.countP (fun a => decide ¬(decide (a = ⊤) = true))
      = e.countP (fun t => decide (t < ⊤)) := by
    refine List.countP_congr fun x _ => ?_
    simp [WithTop.lt_top_iff_ne_top]
  omega

theorem n_event_init_le_length (e : List Time) : n_event_init e ≤ e.length :=
  Nat.sub_le _ _

/-- Under the ascending-order check, the first `n_event` event times are
finite and the rest are `⊤`. -/
theorem event_time_finite_iff (e : List Time)
    (hsort : e.Chain' (· ≤ ·)) (i : ℕ) (hi : i < e.length) :
    e.getD i ⊤ < ⊤ ↔ i < n_event_init e := by
  have hpair : e.Pairwise (· ≤ ·) := List.chain'_iff_pairwise.mp hsort
  have hdc : ∀ a b : Time, a ≤ b → decide (b < ⊤) = true → decide (a < ⊤) = true := by
    intro a b hab hb
    simp only [decide_eq_true_eq] at hb ⊢
    exact lt_of_le_of_lt hab hb
  obtain ⟨h1, h2⟩ := pairwise_getD_countP (· ≤ ·) e (fun t => decide (t < ⊤)) ⊤
    hpair hdc
  rw [n_event_init_eq_countP]
  constructor
  · intro hlt
    by_contra hge
    have h2i := h2 i hi (by omega)
    rw [decide_eq_false_iff_not] at h2i
    exact h2i hlt
  · intro hcnt
    exact of_decide_eq_true (h1 i hcnt)

theorem self_eq_map_getD_range {β : Type} (l : List β) (d : β) :
    l = (List.range l.length).map (fun i => l.getD i d) := by
  refine List.ext_getElem (by simp) fun n h1 h2 => ?_
  rw [List.getElem_map, List.getElem_range, List.getD_eq_getElem _ _ h1]

theorem getD_mono_of_pairwise_le {β : Type} [Preorder β] (l : List β) (d : β)
    (h : l.Pairwise (· ≤ ·)) {a b : ℕ} (hab : a ≤ b) (hb : b < l.length) :
    l.getD a d ≤ l.getD b d := by
  rcases Nat.lt_or_ge a b with hlt | hge
  · have ha : a < l.length := by omega
    rw [List.getD_eq_getElem _ _ ha, List.getD_eq_getElem _ _ hb]
    exact List.pairwise_iff_get.mp h ⟨a, ha⟩ ⟨b, hb⟩ hlt
  · have hab2 : a = b := by omega
    subst hab2
    exact le_refl _

theorem getD_anti_of_pairwise_ge {β : Type} [Preorder β] (l : List β) (d : β)
    (h : l.Pairwise (fun x y => y ≤ x)) {a b : ℕ} (hab : a ≤ b) (hb : b < l.length) :
    l.getD b d ≤ l.getD a d := by
  rcases Nat.lt_or_ge a b with hlt | hge
  · have ha : a < l.length := by omega
    rw [List.getD_eq_getElem _ _ ha, List.getD_eq_getElem _ _ hb]
    exact List.pairwise_iff_get.mp h ⟨a, ha⟩ ⟨b, hb⟩ hlt
  · have hab2 : a = b := by omega
    subst hab2
    exact le_refl _

/-- Counting under a predicate that holds on a downward-closed set of
`[0, n)`: membership is equivalent to being below the count. -/
theorem lt_countP_range_iff (p : ℕ → Bool) (n : ℕ)
    (hdc : ∀ a b : ℕ, a ≤ b → b < n → p b = true → p a = true)
    (k : ℕ) (hk : k < n) : k < (List.range n).countP p ↔ p k = true := by
  induction n with
  | zero => omega
  | succ m ih =>
    rw [List.range_succ, List.countP_append]
    have hdc' : ∀ a b : ℕ, a ≤ b → b < m → p b = true → p a = true :=
      fun a b h1 h2 => hdc a b h1 (by omega)
    by_cases hpm : p m = true
    · have hall : ∀ a, a < m → p a = true :=
        fun a ha => hdc a m (by omega) (by omega) hpm
      have hcnt : (List.range m).countP p = m := by
        rw [List.countP_eq_length.mpr fun a ha => hall a (List.mem_range.mp ha),
          List.length_range]
      have hsingle : List.countP p [m] = 1 := by
        simp [List.countP_cons, hpm]
      rw [hcnt, hsingle]
      constructor
      · intro _
        rcases Nat.lt_or_ge k m with hkm | hkm
        · exact hall k hkm
        · have : k = m := by omega
          rw [this]
          exact hpm
      · intro _
        omega
    · have hsingle : List.countP p [m] = 0 := by
        simp [List.countP_cons, hpm]
      rw [hsingle, Nat.add_zero]
      rcases Nat.lt_or_ge k m with hkm | hkm
      · exact ih hdc' hkm
      · have hkeq : k = m := by omega
        subst hkeq
        constructor
        · intro hcount
          have := List.countP_le_length p (l := List.range k)
          rw [List.length_range] at this
          omega
        · intro hpk
          exact absurd hpk hpm

/-- With the censoring times sorted descending, `j` lies in the risk set
counted by `np.sum(t < censoring_time)` iff `t < censoring_time[j]`. -/
theorem lt_countP_censoring_iff (c : List Time)
    (hc : c.Pairwise (fun a b => b ≤ a)) (t : Time) (j : ℕ) (hj : j < c.length) :
    j < c.countP (fun s => decide (t < s)) ↔ t < c.getD j ⊤ := by
  have hmap : c.countP (fun s => decide (t < s))
      = (List.range c.length).countP (fun i => decide (t < c.getD i ⊤)) := by
    conv_lhs => rw [self_eq_map_getD_range c ⊤]
    rw [List.countP_map]
    rfl
  rw [hmap, lt_countP_range_iff _ _ ?_ j hj]
  · simp only [decide_eq_true_eq]
  · intro a b hab hb hp
    simp only [decide_eq_true_eq] at hp ⊢
    exact lt_of_lt_of_le hp (getD_anti_of_pairwise_ge c ⊤ hc hab hb)

theorem argsort_perm {β : Type} [LinearOrder β] (d : β) (l : List β) :
    (argsort d l).Perm (List.range l.length) :=
  List.perm_insertionSort _ _

theorem argsort_length {β : Type} [LinearOrder β] (d : β) (l : List β) :
    (argsort d l).length = l.length := by
  rw [(argsort_perm d l).length_eq, List.length_range]

theorem argsort_sorted {β : Type} [LinearOrder β] (d : β) (l : List β) :
    (argsort d l).Pairwise
      (fun i j => l.getD i d < l.getD j d ∨ (l.getD i d = l.getD j d ∧ i ≤ j)) := by
  haveI : IsTotal ℕ
      (fun i j => l.getD i d < l.getD j d ∨ (l.getD i d = l.getD j d ∧ i ≤ j)) := by
    constructor
    intro i j
    rcases lt_trichotomy (l.getD i d) (l.getD j d) with h | h | h
    · exact Or.inl (Or.inl h)
    · rcases Nat.le_total i j with hij | hij
      · exact Or.inl (Or.inr ⟨h, hij⟩)
      · exact Or.inr (Or.inr ⟨h.symm, hij⟩)
    · exact Or.inr (Or.inl h)
  haveI : IsTrans ℕ
      (fun i j => l.getD i d < l.getD j d ∨ (l.getD i d = l.getD j d ∧ i ≤ j)) := by
    constructor
    intro a b c hab hbc
    rcases hab with h1 | ⟨h1, h1'⟩ <;> rcases hbc with h2 | ⟨h2, h2'⟩
    · exact Or.inl (lt_trans h1 h2)
    · exact Or.inl (lt_of_lt_of_eq h1 h2)
    · exact Or.inl (lt_of_eq_of_lt h1 h2)
    · exact Or.inr ⟨h1.trans h2, le_trans h1' h2'⟩
  exact List.sorted_insertionSort _ _

theorem argsort_map_pairwise {β : Type} [LinearOrder β] (d : β) (l : List β) :
    ((argsort d l).map (fun i => l.getD i d)).Pairwise (· ≤ ·) := by
  rw [List.pairwise_map]
  refine (argsort_sorted d l).imp ?_
  intro i j hij
  rcases hij with h | ⟨h, _⟩
  · exact le_of_lt h
  · exact le_of_eq h

theorem argsort_map_perm {β : Type} [LinearOrder β] (d : β) (l : List β) :
    ((argsort d l).map (fun i => l.getD i d)).Perm l := by
  have h1 := (argsort_perm d l).map (fun i => l.getD i d)
  rw [← self_eq_map_getD_range l d] at h1
  exact h1

theorem argsort_getD_lt {β : Type} [LinearOrder β] (d : β) (l : List β) {i : ℕ}
    (hi : i < (argsort d l).length) : (argsort d l).getD i 0 < l.length := by
  have hm : (argsort d l).getD i 0 ∈ argsort d l := by
    rw [List.getD_eq_getElem _ _ hi]
    exact List.getElem_mem hi
  exact List.mem_range.mp ((argsort_perm d l).mem_iff.mp hm)

theorem nodup_getD_inj {β : Type} (l : List β) (d : β) (hnd : l.Nodup) {a b : ℕ}
    (ha : a < l.length) (hb : b < l.length) (h : l.getD a d = l.getD b d) :
    a = b := by
  rw [List.getD_eq_getElem _ _ ha, List.getD_eq_getElem _ _ hb] at h
  exact (List.Nodup.getElem_inj_iff hnd).mp h

/-- For a permutation `p` of `[0, n)`, sorting the indices by `p`-value lists
the values in increasing order, i.e. `p ∘ argsort(p) = id`. -/
theorem map_getD_argsort_of_perm_range (p : List ℕ) (n : ℕ)
    (hp : p.Perm (List.range n)) :
    (argsort 0 p).map (fun i => p.getD i 0) = List.range n := by
  have hperm : ((argsort 0 p).map (fun i => p.getD i 0)).Perm (List.range n) :=
    (argsort_map_perm 0 p).trans hp
  exact List.eq_of_perm_of_sorted hperm (argsort_map_pairwise 0 p)
    (List.pairwise_le_range n)

theorem getD_comp_inverse (p : List ℕ) (n : ℕ) (hp : p.Perm (List.range n))
    (j : ℕ) (hj : j < n) : p.getD ((argsort 0 p).getD j 0) 0 = j := by
  have hmap := map_getD_argsort_of_perm_range p n hp
  have hplen : p.length = n := by rw [hp.length_eq, List.length_range]
  have hlen : (argsort 0 p).length = n := by rw [argsort_length, hplen]
  have hj2 : j < (argsort 0 p).length := by omega
  calc p.getD ((argsort 0 p).getD j 0) 0
      = ((argsort 0 p).map (fun i => p.getD i 0)).getD j 0 :=
        (getD_map' (fun i => p.getD i 0) (argsort 0 p) j 0 0 hj2).symm
    _ = (List.range n).getD j 0 := by rw [hmap]
    _ = j := by
        rw [List.getD_eq_getElem _ _ (by rw [List.length_range]; exact hj),
          List.getElem_range]

theorem getD_comp_inverse' (p : List ℕ) (n : ℕ) (hp : p.Perm (List.range n))
    (k : ℕ) (hk : k < n) : (argsort 0 p).getD (p.getD k 0) 0 = k := by
  have hplen : p.length = n := by rw [hp.length_eq, List.length_range]
  have hqlen : (argsort 0 p).length = n := by rw [argsort_length, hplen]
  have hpk : p.getD k 0 < n := by
    have hm : p.getD k 0 ∈ p := by
      rw [List.getD_eq_getElem _ _ (by omega : k < p.length)]
      exact List.getElem_mem _
    exact List.mem_range.mp (hp.mem_iff.mp hm)
  have hk' : (argsort 0 p).getD (p.getD k 0) 0 < n := by
    have := argsort_getD_lt 0 p (i := p.getD k 0) (by omega)
    omega
  have h1 : p.getD ((argsort 0 p).getD (p.getD k 0) 0) 0 = p.getD k 0 :=
    getD_comp_inverse p n hp (p.getD k 0) hpk
  have hnd : p.Nodup := hp.symm.nodup (List.nodup_range n)
  exact nodup_getD_inj p 0 hnd (by omega) (by omega) h1

theorem argsort_argsort_of_perm_range (p : List ℕ) (n : ℕ)
    (hp : p.Perm (List.range n)) : argsort 0 (argsort 0 p) = p := by
  have hplen : p.length = n := by rw [hp.length_eq, List.length_range]
  have hqperm : (argsort 0 p).Perm (List.range n) := by
    have := argsort_perm 0 p
    rw [hplen] at this
    exact this
  have hqlen : (argsort 0 p).length = n := by rw [argsort_length, hplen]
  have hqnd : (argsort 0 p).Nodup := hqperm.symm.nodup (List.nodup_range n)
  refine List.ext_getElem ?_ ?_
  · rw [argsort_length, hqlen, hplen]
  · intro k hk1 hk2
    have hkn : k < n := by
      rw [argsort_length, hqlen] at hk1
      exact hk1
    have ha : (argsort 0 p).getD ((argsort 0 (argsort 0 p)).getD k 0) 0 = k :=
      getD_comp_inverse (argsort 0 p) n hqperm k hkn
    have hb : (argsort 0 p).getD (p.getD k 0) 0 = k :=
      getD_comp_inverse' p n hp k hkn
    have hlt1 : (argsort 0 (argsort 0 p)).getD k 0 < n := by
      have := argsort_getD_lt 0 (argsort 0 p) (i := k) (by rwa [argsort_length, hqlen])
      omega
    have hlt2 : p.getD k 0 < n := by
      have hm : p.getD k 0 ∈ p := by
        rw [List.getD_eq_getElem _ _ (by omega : k < p.length)]
        exact List.getElem_mem _
      exact List.mem_range.mp (hp.mem_iff.mp hm)
    have heq : (argsort 0 (argsort 0 p)).getD k 0 = p.getD k 0 :=
      nodup_getD_inj (argsort 0 p) 0 hqnd (by omega) (by omega) (ha.trans hb.symm)
    rw [← List.getD_eq_getElem (argsort 0 (argsort 0 p)) 0 hk1,
      ← List.getD_eq_getElem p 0 hk2]
    exact heq

/-- `argsort(rank_by_value(arr)) = argsort(arr)`: the first block of
`sort_ind` in the source is just the argsort of the event times. -/
theorem argsort_np_rank {β : Type} [LinearOrder β] (d : β) (arr : List β) :
    argsort 0 (np_rank_by_value d arr) = argsort d arr := by
  rw [np_rank_by_value]
  exact argsort_argsort_of_perm_range (argsort d arr) arr.length (argsort_perm d arr)

theorem np_rank_length {β : Type} [LinearOrder β] (d : β) (arr : List β) :
    (np_rank_by_value d arr).length = arr.length := by
  rw [np_rank_by_value, argsort_length, argsort_length]

theorem np_rank_perm {β : Type} [LinearOrder β] (d : β) (arr : List β) :
    (np_rank_by_value d arr).Perm (List.range arr.length) := by
  rw [np_rank_by_value]
  have := argsort_perm 0 (argsort d arr)
  rwa [argsort_length] at this

theorem getD_eq_sortedvals_rank {β : Type} [LinearOrder β] (d : β) (arr : List β)
    (i : ℕ) (hi : i < arr.length) :
    arr.getD i d = ((argsort d arr).map (fun j => arr.getD j d)).getD
      ((np_rank_by_value d arr).getD i 0) d := by
  have hqlen : (argsort d arr).length = arr.length := argsort_length d arr
  have hrk : (np_rank_by_value d arr).getD i 0 < (argsort d arr).length := by
    rw [np_rank_by_value]
    have := argsort_getD_lt 0 (argsort d arr) (i := i)
      (by rw [argsort_length, hqlen]; exact hi)
    omega
  have hcomp : (argsort d arr).getD ((np_rank_by_value d arr).getD i 0) 0 = i := by
    rw [np_rank_by_value]
    exact getD_comp_inverse (argsort d arr) arr.length (argsort_perm d arr) i hi
  rw [getD_map' _ _ _ 0 _ hrk, hcomp]

theorem rank_le_imp_le {β : Type} [LinearOrder β] (d : β) (arr : List β) {i j : ℕ}
    (hi : i < arr.length) (hj : j < arr.length)
    (h : (np_rank_by_value d arr).getD i 0 ≤ (np_rank_by_value d arr).getD j 0) :
    arr.getD i d ≤ arr.getD j d := by
  have hrkj : (np_rank_by_value d arr).getD j 0 < (argsort d arr).length := by
    rw [np_rank_by_value]
    have := argsort_getD_lt 0 (argsort d arr) (i := j)
      (by rw [argsort_length, argsort_length]; exact hj)
    rw [argsort_length]
    rw [argsort_length] at this
    exact this
  rw [getD_eq_sortedvals_rank d arr i hi, getD_eq_sortedvals_rank d arr j hj]
  exact getD_mono_of_pairwise_le _ d (argsort_map_pairwise d arr) h
    (by rw [List.length_map]; exact hrkj)

theorem getD_zip' {β γ : Type} (l1 : List β) (l2 : List γ) (j : ℕ) (d1 : β)
    (d2 : γ) (h1 : j < l1.length) (h2 : j < l2.length) :
    (l1.zip l2).getD j (d1, d2) = (l1.getD j d1, l2.getD j d2) := by
  have hz : j < (l1.zip l2).length := by
    rw [List.length_zip]
    omega
  rw [List.getD_eq_getElem _ _ hz, List.getElem_zip,
    List.getD_eq_getElem _ _ h1, List.getD_eq_getElem _ _ h2]

/-- On an `R`-sorted list, filtering by a predicate that propagates backwards
along `R` keeps exactly the first `countP` elements. -/
theorem filter_eq_take_countP {β : Type} (R : β → β → Prop) (l : List β)
    (p : β → Bool) (hsort : l.Pairwise R)
    (hdc : ∀ a b : β, R a b → p b = true → p a = true) :
    l.filter p = l.take (l.countP p) := by
  induction l with
  | nil => rfl
  | cons x t ih =>
    rw [List.pairwise_cons] at hsort
    obtain ⟨hxle, hsort'⟩ := hsort
    by_cases hp : p x = true
    · rw [List.filter_cons_of_pos hp, List.countP_cons_of_pos _ _ hp,
        List.take_succ_cons, ih hsort']
    · have htz : t.countP p = 0 := by
        rw [List.countP_eq_zero]
        intro a ha hpa
        exact hp (hdc x a (hxle a ha) hpa)
      have hft : t.filter p = [] := by
        rw [List.filter_eq_nil_iff]
        intro a ha hpa
        exact hp (hdc x a (hxle a ha) hpa)
      simp [List.filter_cons, List.countP_cons, hp, htz, hft]

theorem take_eq_map_range {β : Type} (l : List β) (d : β) (m : ℕ)
    (hm : m ≤ l.length) :
    l.take m = (List.range m).map (fun k => l.getD k d) := by
  refine List.ext_getElem ?_ ?_
  · rw [List.length_take, List.length_map, List.length_range]
    omega
  · intro i h1 h2
    have hi : i < m := by
      rw [List.length_take] at h1
      omega
    rw [List.getElem_take, List.getElem_map, List.getElem_range,
      List.getD_eq_getElem _ _ (by omega)]

theorem sum_list_map_range {α : Type} [AddCommMonoid α] (g : ℕ → α) (n : ℕ) :
    ((List.range n).map g).sum = ∑ i ∈ Finset.range n, g i := by
  induction n with
  | zero => simp
  | succ m ih =>
    rw [List.range_succ, List.map_append, List.sum_append, ih,
      Finset.sum_range_succ]
    simp

theorem getD_strict_of_pairwise_lt {β : Type} [Preorder β] (l : List β) (d : β)
    (h : l.Pairwise (· < ·)) {a b : ℕ} (hab : a < b) (hb : b < l.length) :
    l.getD a d < l.getD b d := by
  have ha : a < l.length := by omega
  rw [List.getD_eq_getElem _ _ ha, List.getD_eq_getElem _ _ hb]
  exact List.pairwise_iff_get.mp h ⟨a, ha⟩ ⟨b, hb⟩ hab

theorem getD_reverse' {β : Type} (l : List β) (d : β) (i : ℕ) (h : i < l.length) :
    l.reverse.getD i d = l.getD (l.length - 1 - i) d := by
  have h2 : i < l.reverse.length := by
    rw [List.length_reverse]
    exact h
  rw [List.getD_eq_getElem _ _ h2, List.getElem_reverse,
    List.getD_eq_getElem _ _ (by omega)]

theorem chain'_of_forall_eq {β : Type} (R : β → β → Prop) (l : List β) (a : β)
    (hR : R a a) (h : ∀ x ∈ l, x = a) : l.Chain' R := by
  rw [List.chain'_iff_get]
  intro i hi
  rw [h (l.get ⟨i, by omega⟩) (List.get_mem _ _ _),
    h (l.get ⟨i + 1, by omega⟩) (List.get_mem _ _ _)]
  exact hR

theorem censoring_consistent_iff (e c : List Time) :
    censoring_consistent e c = true ↔
      ∀ p ∈ e.zip c, (p.1 = ⊤ ↔ p.2 < ⊤) := by
  rw [censoring_consistent, List.all_eq_true]
  constructor
  · intro h p hp
    have := h p hp
    rcases hp1 : decide (p.1 = ⊤) with _ | _ <;>
      rcases hp2 : decide (p.2 < ⊤) with _ | _ <;>
        rw [hp1, hp2] at this <;> simp_all
  · intro h p hp
    have := h p hp
    rcases hp1 : decide (p.1 = ⊤) with _ | _ <;>
      rcases hp2 : decide (p.2 < ⊤) with _ | _ <;> simp_all

theorem foldr_max_map_add (l : List ℝ) (s b : ℝ) :
    ((l.map (fun x => x + s)).foldr max (b + s)) = (l.foldr max b) + s := by
  induction l with
  | nil => rfl
  | cons x t ih =>
    simp only [List.map_cons, List.foldr_cons, ih]
    exact max_add_add_right x (t.foldr max b) s

theorem listMax_map_add (l : List ℝ) (s : ℝ) (h : l ≠ []) :
    listMax (l.map (fun x => x + s)) = listMax l + s := by
  cases l with
  | nil => exact absurd rfl h
  | cons a t =>
    rw [listMax, listMax]
    simp only [List.map_cons, List.headD_cons]
    simpa only [List.map_cons] using foldr_max_map_add (a :: t) s a

theorem shift_log_hazard_map_add (η : List ℝ) (s : ℝ) (h : η ≠ []) :
    shift_log_hazard (η.map (fun x => x + s)) = shift_log_hazard η := by
  rw [shift_log_hazard, shift_log_hazard, listMax_map_add η s h, List.map_map]
  have hfun : ((fun x => x + (0 - (listMax η + s))) ∘ (fun x => x + s))
      = fun x => x + (0 - listMax η) := by
    funext x
    simp only [Function.comp_apply]
    ring
  rw [hfun]

theorem sum_zipWith {α β γ : Type} [AddCommMonoid γ] (f : α → β → γ)
    (l1 : List α) (l2 : List β) (d1 : α) (d2 : β) :
    (List.zipWith f l1 l2).sum
      = ∑ i ∈ Finset.range (min l1.length l2.length),
          f (l1.getD i d1) (l2.getD i d2) := by
  induction l1 generalizing l2 with
  | nil => simp
  | cons a t ih =>
    cases l2 with
    | nil => simp
    | cons b u =>
      rw [List.zipWith_cons_cons, List.sum_cons, ih u]
      have hmin : min (a :: t).length (b :: u).length = min t.length u.length + 1 := by
        simp only [List.length_cons]
        omega
      rw [hmin, Finset.sum_range_succ']
      simp only [List.getD_cons_succ, List.getD_cons_zero]
      exact (add_comm _ _)

theorem length_sum_over_risk_set {α : Type} [AddCommMonoid α] (arr : List α)
    (rsei : List ℕ) (h : rsei.length ≤ arr.length) :
    (sum_over_risk_set arr rsei).length = rsei.length := by
  rw [sum_over_risk_set]
  simp only [List.length_zipWith, List.length_map, List.length_append,
    length_np_reverse_cumsum, List.length_take, List.length_cons, List.length_nil]
  omega

end CoxModel

open CoxModel in
/-- C4, counterexample: with `event_time = [1, ∞]`, `censoring_time = [∞, 1]`
the constructor accepts the input, yet `risk_set_end_index[0]` is `0`
(the code counts censoring times strictly greater than the event time)
while the claimed value `(count of censoringTime ≥ eventTime[0]) - 1` is `1`. -/
theorem risk_set_end_index_ge_counterexample :
    (coxInit [(1 : Time), ⊤] [⊤, (1 : Time)]).isOk = true ∧
    (risk_set_end_index [(1 : Time), ⊤] [⊤, (1 : Time)]).getD 0 0
      ≠ (([⊤, (1 : Time)].countP
          (fun s => decide ([(1 : Time), ⊤].getD 0 ⊤ ≤ s)) : ℤ) - 1) := by
  decide

open CoxModel in
/-- C4 amended: for every input accepted by the constructor and every
`k < n_event`, `risk_set_end_index[k]` equals the count of censoring times
**strictly greater** than the `k`-th event time, minus one; equivalently it is
the rightmost index `j` with `censoring_time[j] > event_time[k]`. -/
theorem risk_set_end_index_strict (e c : List Time) (st : CoxState)
    (h : coxInit e c = .ok st) (k : ℕ) (hk : k < st.risk_set_end_index.length) :
    st.risk_set_end_index.getD k 0
      = (c.countP (fun s => decide (e.getD k ⊤ < s)) : ℤ) - 1 ∧
    (∀ j, j < c.length →
      ((j : ℤ) ≤ st.risk_set_end_index.getD k 0 ↔ e.getD k ⊤ < c.getD j ⊤)) := by
  obtain ⟨hse, hsc, hnap, hst⟩ := (coxInit_ok_iff e c st).mp h
  have hcsort : c.Chain' (fun a b => b ≤ a) :=
    (any_adjacent_increase_eq_false c).mp hsc
  haveI : IsTrans Time (fun a b => b ≤ a) := ⟨fun a b c h1 h2 => le_trans h2 h1⟩
  have hcpair : c.Pairwise (fun a b => b ≤ a) := List.chain'_iff_pairwise.mp hcsort
  subst hst
  simp only [risk_set_end_index] at hk ⊢
  have hklen : k < (e.take (n_event_init e)).length := by
    rw [List.length_map] at hk
    exact hk
  have hkne : k < n_event_init e := by
    rw [List.length_take] at hklen
    omega
  have hkel : k < e.length := by
    have := n_event_init_le_length e
    omega
  have hfirst : ((e.take (n_event_init e)).map
      (fun t => (c.countP (fun s => decide (t < s)) : ℤ) - 1)).getD k 0
      = (c.countP (fun s => decide (e.getD k ⊤ < s)) : ℤ) - 1 := by
    rw [getD_map' _ _ _ ⊤ _ hklen, getD_take' e _ k ⊤ hkne hkel]
  refine ⟨hfirst, fun j hj => ?_⟩
  rw [hfirst, ← lt_countP_censoring_iff c hcpair (e.getD k ⊤) j hj]
  omega

open CoxModel in
theorem risk_set_end_index_strict_witness :
    coxInit [(1 : Time), ⊤] [⊤, (2 : Time)]
      = .ok ⟨1, [(1 : Time), ⊤], [⊤, (2 : Time)], [1, 1], [1]⟩ ∧
    (0 : ℕ) < (([1] : List ℤ)).length ∧
    ((⟨1, [(1 : Time), ⊤], [⊤, (2 : Time)], [1, 1], [1]⟩ :
        CoxState).risk_set_end_index.getD 0 0
      = (([⊤, (2 : Time)].countP
          (fun s => decide ([(1 : Time), ⊤].getD 0 ⊤ < s)) : ℤ) - 1)) :=
  ⟨by decide, by decide,
    (risk_set_end_index_strict [(1 : Time), ⊤] [⊤, (2 : Time)]
      ⟨1, [(1 : Time), ⊤], [⊤, (2 : Time)], [1, 1], [1]⟩ (by decide) 0 (by decide)).1⟩

open CoxModel in
/-- C7: in exact real arithmetic, the log-likelihood and the gradient
(`X.Tdot` of the hazard-balance vector, for any design-matrix transpose
operation `Tdot`) are unchanged when the linear predictor `η = X·β` is
uniformly shifted by `s`; and the returned log-likelihood equals
`Σ_{k<nEvent} (η[k] - log Σ_{i∈risk set k} exp(η[i]))` at the unshifted `η`. -/
theorem loglik_gradient_shift_invariant (Tdot : List ℝ → List ℝ) (η : List ℝ)
    (s : ℝ) (rsei nap : List ℕ) (hη : η ≠ [])
    (hbound : ∀ k, k < rsei.length →
      rsei.length ≤ rsei.getD k 0 + 1 ∧ rsei.getD k 0 + 1 ≤ η.length) :
    compute_loglik_and_gradient Tdot (η.map (fun x => x + s)) rsei nap
      = compute_loglik_and_gradient Tdot η rsei nap ∧
    coxLogLik η rsei
      = ∑ k ∈ Finset.range rsei.length,
          (η.getD k 0 - Real.log (∑ i ∈ Finset.Icc k (rsei.getD k 0),
            Real.exp (η.getD i 0))) := by
  have hsh := shift_log_hazard_map_add η s hη
  constructor
  · rw [compute_loglik_and_gradient, compute_loglik_and_gradient, coxLogLik,
      coxLogLik, coxGradVector, coxGradVector, hsh, List.length_map]
  · set ne := rsei.length with hne
    have hnen : ne ≤ η.length := by
      rcases Nat.eq_zero_or_pos ne with h0 | hpos
      · omega
      · have := hbound 0 (by omega)
        omega
    have hlh_len : (shift_log_hazard η).length = η.length := by
      rw [shift_log_hazard, List.length_map]
    have hh_len : ((shift_log_hazard η).map Real.exp).length = η.length := by
      rw [List.length_map, hlh_len]
    have hS_len : (sum_over_risk_set ((shift_log_hazard η).map Real.exp)
        rsei).length = ne := by
      rw [length_sum_over_risk_set _ _ (by rw [hh_len]; exact hnen)]
    have htk_len : ((shift_log_hazard η).take ne).length = ne := by
      rw [List.length_take, hlh_len]
      omega
    rw [coxLogLik]
    rw [sum_zipWith _ _ _ 0 0, htk_len, hS_len, min_self]
    refine Finset.sum_congr rfl fun k hk => ?_
    rw [Finset.mem_range] at hk
    have hkn : k < η.length := by omega
    have hb := hbound k hk
    set r := rsei.getD k 0 with hr
    have hkr : k ≤ r := by omega
    have hlh_getD : ∀ i, i < η.length →
        (shift_log_hazard η).getD i 0 = η.getD i 0 + (0 - listMax η) := by
      intro i hi
      rw [shift_log_hazard, getD_map' _ _ _ 0 _ hi]
    rw [getD_take' _ _ _ _ hk (by rw [hlh_len]; omega)]
    rw [getD_sum_over_risk_set _ _ _ hk (by omega) (by rw [hh_len]; omega)]
    have hh_getD : ∀ i ∈ Finset.Icc k r,
        ((shift_log_hazard η).map Real.exp).getD i 0
          = Real.exp (η.getD i 0) * Real.exp (0 - listMax η) := by
      intro i hi
      rw [Finset.mem_Icc] at hi
      have hiη : i < η.length := by omega
      rw [getD_map' Real.exp _ _ 0 _ (by rw [hlh_len]; omega), hlh_getD i hiη,
        Real.exp_add]
    rw [Finset.sum_congr rfl hh_getD, ← Finset.sum_mul]
    have hpos : 0 < ∑ i ∈ Finset.Icc k r, Real.exp (η.getD i 0) :=
      Finset.sum_pos (fun i _ => Real.exp_pos _) (Finset.nonempty_Icc.mpr hkr)
    rw [Real.log_mul (ne_of_gt hpos) (ne_of_gt (Real.exp_pos _)), Real.log_exp,
      hlh_getD k hkn]
    ring

open CoxModel in
theorem loglik_gradient_shift_invariant_witness :
    ([(0 : ℝ)] ≠ []) ∧
    (∀ k, k < ([0] : List ℕ).length →
      ([0] : List ℕ).length ≤ ([0] : List ℕ).getD k 0 + 1 ∧
        ([0] : List ℕ).getD k 0 + 1 ≤ ([(0 : ℝ)]).length) ∧
    (compute_loglik_and_gradient id ([(0 : ℝ)].map (fun x => x + 1)) [0] [1]
        = compute_loglik_and_gradient id [(0 : ℝ)] [0] [1] ∧
      coxLogLik [(0 : ℝ)] [0]
        = ∑ k ∈ Finset.range ([0] : List ℕ).length,
            (([(0 : ℝ)]).getD k 0
              - Real.log (∑ i ∈ Finset.Icc k (([0] : List ℕ).getD k 0),
                Real.exp (([(0 : ℝ)]).getD i 0)))) :=
  ⟨by simp, by decide,
    loglik_gradient_shift_invariant id [(0 : ℝ)] 1 [0] [1] (by simp) (by decide)⟩

open CoxModel in
/-- C5, counterexample: `event_time = [1]`, `censoring_time = [1]` has
inconsistent censoring indicators (both finite), yet the constructor accepts
it and silently builds the derived state — the consistency check lives only in
`permute_observations_by_event_and_censoring_time`. -/
theorem construction_inconsistent_counterexample :
    censoring_consistent [(1 : Time)] [(1 : Time)] = false ∧
    (coxInit [(1 : Time)] [(1 : Time)]).isOk = true := by
  decide

open CoxModel in
/-- C5 amended: construction rejects, with an error naming the violated
invariant, an event-time sequence not sorted ascending, a censoring-time
sequence not sorted descending, and an individual appearing in zero risk
sets; inconsistent censoring indicators are rejected by
`permute_observations_by_event_and_censoring_time`, not by the constructor. -/
theorem coxInit_rejects_invalid (e c : List Time) :
    (¬ e.Chain' (· ≤ ·) → coxInit e c = .error .unsorted_event_time) ∧
    (e.Chain' (· ≤ ·) → ¬ c.Chain' (fun a b => b ≤ a) →
      coxInit e c = .error .unsorted_censoring_time) ∧
    (e.Chain' (· ≤ ·) → c.Chain' (fun a b => b ≤ a) →
      (∃ m ∈ count_risk_set_appearance e c, m = 0) →
      coxInit e c = .error .empty_risk_set) ∧
    (∀ X : List (List ℚ), ¬ (∀ p ∈ e.zip c, (p.1 = ⊤ ↔ p.2 < ⊤)) →
      permute_observations e c X = .error .inconsistent_censoring) := by
  refine ⟨?_, ?_, ?_, ?_⟩
  · intro h
    have hd : any_adjacent_decrease e = true := by
      rcases hb : any_adjacent_decrease e with _ | _
      · exact absurd ((any_adjacent_decrease_eq_false e).mp hb) h
      · rfl
    rw [coxInit, if_pos hd]
  · intro h1 h2
    have hd : any_adjacent_decrease e = false := (any_adjacent_decrease_eq_false e).mpr h1
    have hi : any_adjacent_increase c = true := by
      rcases hb : any_adjacent_increase c with _ | _
      · exact absurd ((any_adjacent_increase_eq_false c).mp hb) h2
      · rfl
    rw [coxInit, if_neg (by simp [hd]), if_pos hi]
  · intro h1 h2 h3
    have hd : any_adjacent_decrease e = false := (any_adjacent_decrease_eq_false e).mpr h1
    have hi : any_adjacent_increase c = false := (any_adjacent_increase_eq_false c).mpr h2
    have hall : (count_risk_set_appearance e c).all (fun m => decide (1 ≤ m)) = false := by
      obtain ⟨m, hm, hm0⟩ := h3
      rcases hb : (count_risk_set_appearance e c).all (fun m => decide (1 ≤ m)) with _ | _
      · rfl
      · have := List.all_eq_true.mp hb m hm
        rw [hm0] at this
        simp at this
    rw [coxInit, if_neg (by simp [hd]), if_neg (by simp [hi]), if_pos (by simp [hall])]
  · intro X h
    have hc : censoring_consistent e c = false := by
      rcases hb : censoring_consistent e c with _ | _
      · rfl
      · exact absurd ((censoring_consistent_iff e c).mp hb) h
    rw [permute_observations, if_pos (by simp [hc])]

open CoxModel in
theorem coxInit_rejects_invalid_witness :
    coxInit [(2 : Time), 1] [] = .error .unsorted_event_time ∧
    coxInit [(1 : Time), 2] [(1 : Time), 2] = .error .unsorted_censoring_time ∧
    coxInit [(5 : Time)] [(1 : Time)] = .error .empty_risk_set ∧
    permute_observations [(1 : Time)] [(1 : Time)] ([[]] : List (List ℚ))
      = .error .inconsistent_censoring :=
  ⟨(coxInit_rejects_invalid [(2 : Time), 1] []).1 (by
      intro h
      rw [List.chain'_cons] at h
      exact absurd h.1 (by decide)),
    (coxInit_rejects_invalid [(1 : Time), 2] [(1 : Time), 2]).2.1
      (by
        rw [List.chain'_cons]
        exact ⟨by decide, List.chain'_singleton _⟩)
      (by
        intro h
        rw [List.chain'_cons] at h
        exact absurd h.1 (by decide)),
    (coxInit_rejects_invalid [(5 : Time)] [(1 : Time)]).2.2.1
      (List.chain'_singleton _) (List.chain'_singleton _) (by decide),
    (coxInit_rejects_invalid [(1 : Time)] [(1 : Time)]).2.2.2 [[]] (by decide)⟩

open CoxModel in
/-- C10: for every `(event_time, censoring_time, X)` with consistent
censoring indicators (so that `permute_observations_by_event_and_censoring_time`
succeeds), the returned arrays satisfy the constructor's ordering checks:
the permuted event times are non-decreasing over the whole array and the
permuted censoring times are non-increasing over the whole array. -/
theorem permute_observations_sorts (e c : List Time) (X : List (List ℚ))
    (hlen : e.length = c.length) (e' c' : List Time) (X' : List (List ℚ))
    (h : permute_observations e c X = .ok (e', c', X')) :
    e'.Chain' (· ≤ ·) ∧ c'.Chain' (fun a b => b ≤ a) := by
  haveI : IsTrans Time (fun a b => b ≤ a) := ⟨fun a b c h1 h2 => le_trans h2 h1⟩
  rw [permute_observations] at h
  split at h
  · exact absurd h (by simp)
  next hcond =>
  have hcons : censoring_consistent e c = true := by
    rcases hb : censoring_consistent e c with _ | _
    · rw [hb] at hcond
      simp at hcond
    · rfl
  set n := e.length with hn
  set ne := e.countP (fun t => decide (t < ⊤)) with hne_def
  set A := argsort 0 (np_rank_by_value ⊤ e) with hA_def
  set B := argsort 0 ((np_rank_by_value ⊤ c).map (fun r : ℕ => -(r : ℤ))) with hB_def
  have hEq : ((A.take ne ++ B.drop ne).map (fun i => e.getD i ⊤),
      (A.take ne ++ B.drop ne).map (fun i => c.getD i ⊤),
      (A.take ne ++ B.drop ne).map (fun i => X.getD i default)) = (e', c', X') :=
    Except.ok.inj h
  have he' : (A.take ne ++ B.drop ne).map (fun i => e.getD i ⊤) = e' :=
    congrArg Prod.fst hEq
  have hc' : (A.take ne ++ B.drop ne).map (fun i => c.getD i ⊤) = c' :=
    congrArg (fun t => t.2.1) hEq
  subst he' hc'
  clear h hEq hcond
  clear_value n ne A B
  -- basic lengths and bounds
  have hnele : ne ≤ n := by
    rw [hne_def, hn]
    exact List.countP_le_length _
  have hA : A = argsort ⊤ e := by
    rw [hA_def, argsort_np_rank]
  have hAlen : A.length = n := by
    rw [hA, argsort_length, hn]
  have hnegclen : ((np_rank_by_value ⊤ c).map (fun r : ℕ => -(r : ℤ))).length = n := by
    rw [List.length_map, np_rank_length, hlen]
  have hBlen : B.length = n := by
    rw [hB_def, argsort_length, hnegclen]
  have hBperm : B.Perm (List.range n) := by
    rw [hB_def]
    have := argsort_perm (0 : ℤ) ((np_rank_by_value ⊤ c).map (fun r : ℕ => -(r : ℤ)))
    rwa [hnegclen] at this
  -- pointwise censoring consistency
  have hpt : ∀ i, i < n → (e.getD i ⊤ = ⊤ ↔ c.getD i ⊤ < ⊤) := by
    intro i hi
    have hziplen : i < (e.zip c).length := by
      rw [List.length_zip]
      omega
    have hmem := List.getElem_mem hziplen
    have hcons2 := (censoring_consistent_iff e c).mp hcons _ hmem
    rw [List.getElem_zip] at hcons2
    rw [List.getD_eq_getElem _ _ (by omega : i < e.length),
      List.getD_eq_getElem _ _ (by rw [← hlen]; omega : i < c.length)]
    exact hcons2
  -- the count of infinite censoring times equals ne
  have hcount_c : c.countP (fun s => decide (s = ⊤)) = ne := by
    have hc1 : c.countP (fun s => decide (s = ⊤))
        = (List.range c.length).countP (fun i => decide (c.getD i ⊤ = ⊤)) := by
      conv_lhs => rw [self_eq_map_getD_range c ⊤]
      rw [List.countP_map]
      rfl
    have he1 : e.countP (fun t => decide (t < ⊤))
        = (List.range e.length).countP (fun i => decide (e.getD i ⊤ < ⊤)) := by
      conv_lhs => rw [self_eq_map_getD_range e ⊤]
      rw [List.countP_map]
      rfl
    rw [hne_def, hc1, he1, ← hlen, ← hn]
    refine List.countP_congr fun i hi => ?_
    rw [List.mem_range] at hi
    have hiff := hpt i (by omega)
    simp only [decide_eq_true_eq]
    constructor
    · intro hci
      rw [WithTop.lt_top_iff_ne_top]
      intro het
      have hcontra := hiff.mp het
      rw [hci] at hcontra
      exact lt_irrefl _ hcontra
    · intro hei
      by_contra hci
      have hclt : c.getD i ⊤ < ⊤ := WithTop.lt_top_iff_ne_top.mpr hci
      have het := hiff.mpr hclt
      rw [het] at hei
      exact lt_irrefl _ hei
  -- sorted value lists
  set sortedE := A.map (fun i => e.getD i ⊤) with hsE
  set sortedC := B.map (fun i => c.getD i ⊤) with hsC
  clear_value sortedE sortedC
  have hsElen : sortedE.length = n := by rw [hsE, List.length_map, hAlen]
  have hsClen : sortedC.length = n := by rw [hsC, List.length_map, hBlen]
  have hsEpair : sortedE.Pairwise (· ≤ ·) := by
    rw [hsE, hA]
    exact argsort_map_pairwise ⊤ e
  have hsEperm : sortedE.Perm e := by
    rw [hsE, hA]
    exact argsort_map_perm ⊤ e
  have hsEcount : sortedE.countP (fun t => decide (t < ⊤)) = ne := by
    rw [hsEperm.countP_eq, hne_def]
  have hsCperm : sortedC.Perm c := by
    have h1 := hBperm.map (fun i => c.getD i ⊤)
    rw [hsC]
    have h2 : (List.range n).map (fun i => c.getD i ⊤) = c := by
      rw [hlen]
      exact (self_eq_map_getD_range c ⊤).symm
    rwa [h2] at h1
  have hsCcount : sortedC.countP (fun t => decide (t = ⊤)) = ne := by
    rw [hsCperm.countP_eq, hcount_c]
  have hsCpair : sortedC.Pairwise (fun a b => b ≤ a) := by
    rw [hsC, List.pairwise_map, hB_def]
    refine (argsort_sorted (0 : ℤ)
      ((np_rank_by_value ⊤ c).map (fun r : ℕ => -(r : ℤ)))).imp_of_mem ?_
    intro i j hi hj hij
    rw [← hB_def] at hi hj
    have hiB : i < n := List.mem_range.mp (hBperm.mem_iff.mp hi)
    have hjB : j < n := List.mem_range.mp (hBperm.mem_iff.mp hj)
    have hneg : ((np_rank_by_value ⊤ c).map (fun r : ℕ => -(r : ℤ))).getD i 0
        ≤ ((np_rank_by_value ⊤ c).map (fun r : ℕ => -(r : ℤ))).getD j 0 := by
      rcases hij with h1 | ⟨h1, _⟩
      · exact le_of_lt h1
      · exact le_of_eq h1
    have hranki : i < (np_rank_by_value ⊤ c).length := by
      rw [np_rank_length, ← hlen]
      omega
    have hrankj : j < (np_rank_by_value ⊤ c).length := by
      rw [np_rank_length, ← hlen]
      omega
    rw [getD_map' (fun r : ℕ => -(r : ℤ)) _ _ 0 _ hranki,
      getD_map' (fun r : ℕ => -(r : ℤ)) _ _ 0 _ hrankj] at hneg
    have hrle : (np_rank_by_value ⊤ c).getD j 0 ≤ (np_rank_by_value ⊤ c).getD i 0 := by
      omega
    exact rank_le_imp_le ⊤ c (by rw [← hlen]; omega) (by rw [← hlen]; omega) hrle
  -- positional facts from the counts
  have hEblocks := pairwise_getD_countP (· ≤ ·) sortedE
    (fun t => decide (t < ⊤)) ⊤ hsEpair
    (fun a b hab hb => by
      simp only [decide_eq_true_eq] at hb ⊢
      exact lt_of_le_of_lt hab hb)
  have hCblocks := pairwise_getD_countP (fun a b => b ≤ a) sortedC
    (fun t => decide (t = ⊤)) ⊤ hsCpair
    (fun a b hab hb => by
      simp only [decide_eq_true_eq] at hb ⊢
      rw [hb] at hab
      exact top_le_iff.mp hab)
  have hAperm : A.Perm (List.range n) := by
    rw [hA]
    have := argsort_perm ⊤ e
    rwa [← hn] at this
  -- block 2 of the event values is all ⊤
  have hblock2e : ∀ x ∈ (B.drop ne).map (fun i => e.getD i ⊤), x = ⊤ := by
    intro x hx
    rw [List.mem_map] at hx
    obtain ⟨a, ha, rfl⟩ := hx
    rw [List.mem_iff_getElem] at ha
    obtain ⟨i, hi, ha⟩ := ha
    have hpos : ne + i < n := by
      rw [List.length_drop, hBlen] at hi
      omega
    have hBi : ne + i < B.length := by
      rw [hBlen]
      omega
    have haD : (B.drop ne).getD i 0 = a := by
      rw [List.getD_eq_getElem _ _ hi, ha]
    have haB : B.getD (ne + i) 0 = a := by
      rw [← haD, getD_drop]
    have hmem : a ∈ B := by
      rw [← haB, List.getD_eq_getElem _ _ hBi]
      exact List.getElem_mem _
    have han : a < n := List.mem_range.mp (hBperm.mem_iff.mp hmem)
    have hcv : sortedC.getD (ne + i) ⊤ = c.getD a ⊤ := by
      rw [hsC, getD_map' (fun i => c.getD i ⊤) _ _ 0 _ hBi, haB]
    have hnot : decide (sortedC.getD (ne + i) ⊤ = ⊤) = false := by
      refine hCblocks.2 (ne + i) (by rw [hsClen]; omega) ?_
      rw [hsCcount]
      omega
    have hcne : c.getD a ⊤ ≠ ⊤ := by
      rw [← hcv]
      intro hcontra
      rw [hcontra] at hnot
      simp at hnot
    exact (hpt a han).mpr (WithTop.lt_top_iff_ne_top.mpr hcne)
  -- block 1 of the censoring values is all ⊤
  have hblock1c : ∀ x ∈ (A.take ne).map (fun i => c.getD i ⊤), x = ⊤ := by
    intro x hx
    rw [List.mem_map] at hx
    obtain ⟨a, ha, rfl⟩ := hx
    rw [List.mem_iff_getElem] at ha
    obtain ⟨i, hi, ha⟩ := ha
    have hine : i < ne := by
      rw [List.length_take] at hi
      omega
    have hiA : i < A.length := by
      rw [hAlen]
      omega
    have haD : (A.take ne).getD i 0 = a := by
      rw [List.getD_eq_getElem _ _ hi, ha]
    have haA : A.getD i 0 = a := (getD_take' A ne i 0 hine hiA).symm.trans haD
    have hmem : a ∈ A := by
      rw [← haA, List.getD_eq_getElem _ _ hiA]
      exact List.getElem_mem _
    have han : a < n := List.mem_range.mp (hAperm.mem_iff.mp hmem)
    have hev : sortedE.getD i ⊤ = e.getD a ⊤ := by
      rw [hsE, getD_map' (fun i => e.getD i ⊤) _ _ 0 _ hiA, haA]
    have hfin : decide (sortedE.getD i ⊤ < ⊤) = true := by
      refine hEblocks.1 i ?_
      rw [hsEcount]
      omega
    have hefin : e.getD a ⊤ < ⊤ := by
      rw [← hev]
      exact of_decide_eq_true hfin
    rcases eq_or_ne (c.getD a ⊤) ⊤ with hceq | hcne
    · exact hceq
    · exact absurd ((hpt a han).mpr (WithTop.lt_top_iff_ne_top.mpr hcne))
        (WithTop.lt_top_iff_ne_top.mp hefin)
  -- assembly
  rw [List.map_append, List.map_append]
  constructor
  · rw [List.chain'_append]
    refine ⟨?_, ?_, ?_⟩
    · rw [List.map_take, ← hsE]
      refine List.chain'_iff_pairwise.mpr ?_
      exact List.Pairwise.sublist (List.take_sublist ne _) hsEpair
    · exact chain'_of_forall_eq _ _ ⊤ le_rfl hblock2e
    · intro x hx y hy
      have hy2 : y ∈ (B.drop ne).map (fun i => e.getD i ⊤) :=
        List.mem_of_mem_head? hy
      rw [hblock2e y hy2]
      exact le_top
  · rw [List.chain'_append]
    refine ⟨?_, ?_, ?_⟩
    · exact chain'_of_forall_eq _ _ ⊤ le_rfl hblock1c
    · rw [List.map_drop, ← hsC]
      refine List.chain'_iff_pairwise.mpr ?_
      exact List.Pairwise.sublist (List.drop_sublist ne _) hsCpair
    · intro x hx y hy
      have hx2 : x ∈ (A.take ne).map (fun i => c.getD i ⊤) :=
        List.mem_of_mem_getLast? hx
      rw [hblock1c x hx2]
      exact le_top

open CoxModel in
theorem permute_observations_sorts_witness :
    ([(1 : Time), ⊤] : List Time).length = ([⊤, (2 : Time)] : List Time).length ∧
    permute_observations [(1 : Time), ⊤] [⊤, (2 : Time)] ([[1], [2]] : List (List ℚ))
      = .ok ([(1 : Time), ⊤], [⊤, (2 : Time)], [[1], [2]]) ∧
    (([(1 : Time), ⊤] : List Time).Chain' (· ≤ ·) ∧
      ([⊤, (2 : Time)] : List Time).Chain' (fun a b => b ≤ a)) :=
  ⟨by decide, by decide,
    permute_observations_sorts [(1 : Time), ⊤] [⊤, (2 : Time)] [[1], [2]]
      (by decide) [(1 : Time), ⊤] [⊤, (2 : Time)] [[1], [2]] (by decide)⟩

open CoxModel in
/-- C9: for every accepted input in which every individual with a finite event
time has censoring time `∞`, the derived `risk_set_end_index` is non-increasing
and every entry lies in `[n_event - 1, n - 1]` (so all downstream indexing of
`_sum_over_risk_set` is in bounds and `risk_set_end_index[k] - n_event + 1` is
never negative). -/
theorem risk_set_end_index_bounds (e c : List Time) (st : CoxState)
    (h : coxInit e c = .ok st) (hlen : c.length = e.length)
    (hcen : ∀ i, i < e.length → e.getD i ⊤ < ⊤ → c.getD i ⊤ = ⊤) :
    st.risk_set_end_index.Chain' (fun a b => b ≤ a) ∧
    (∀ k, k < st.risk_set_end_index.length →
      ((st.n_event : ℤ) - 1 ≤ st.risk_set_end_index.getD k 0 ∧
        st.risk_set_end_index.getD k 0 ≤ (e.length : ℤ) - 1)) := by
  obtain ⟨hse, hsc, hnap, hst⟩ := (coxInit_ok_iff e c st).mp h
  have hesort : e.Chain' (· ≤ ·) := (any_adjacent_decrease_eq_false e).mp hse
  have hrs : st.risk_set_end_index = risk_set_end_index e c := by rw [hst]
  have hnev : st.n_event = n_event_init e := by rw [hst]
  rw [hrs, hnev]
  simp only [risk_set_end_index]
  set ne := n_event_init e with hne
  have hnele : ne ≤ e.length := n_event_init_le_length e
  constructor
  · rw [List.chain'_map]
    refine List.Chain'.imp ?_ (List.Chain'.take hesort ne)
    intro a b hab
    have hcle : c.countP (fun s => decide (b < s))
        ≤ c.countP (fun s => decide (a < s)) := by
      refine List.countP_mono_left fun s _ hbs => ?_
      simp only [decide_eq_true_eq] at hbs ⊢
      exact lt_of_le_of_lt hab hbs
    omega
  · intro k hk
    rw [List.length_map, List.length_take] at hk
    have hkne : k < ne := by omega
    have hkel : k < e.length := by omega
    have hklen : k < (e.take ne).length := by
      rw [List.length_take]
      omega
    rw [getD_map' _ _ _ ⊤ _ hklen, getD_take' e _ k ⊤ hkne hkel]
    constructor
    · -- lower bound: at least the n_event individuals with c = ∞ are at risk
      have hlentake : (c.take ne).length = ne := by
        rw [List.length_take]
        omega
      have htop : (c.take ne).countP (fun s => decide (e.getD k ⊤ < s)) = ne := by
        have hall : ∀ x ∈ c.take ne, decide (e.getD k ⊤ < x) = true := by
          intro x hx
          rw [List.mem_iff_getElem] at hx
          obtain ⟨i, hi, rfl⟩ := hx
          rw [List.getElem_take]
          have hine : i < ne := by
            rw [List.length_take] at hi
            omega
          have hie : i < e.length := by omega
          have hefin : e.getD i ⊤ < ⊤ := by
            rw [event_time_finite_iff e hesort i hie]
            exact hine
          have hctop : c.getD i ⊤ = ⊤ := hcen i hie hefin
          have hkfin : e.getD k ⊤ < ⊤ := by
            rw [event_time_finite_iff e hesort k hkel]
            exact hkne
          rw [List.getD_eq_getElem _ _ (by omega : i < c.length)] at hctop
          rw [hctop]
          simpa using hkfin
        rw [List.countP_eq_length.mpr hall, hlentake]
      have hsplit : c.countP (fun s => decide (e.getD k ⊤ < s))
          = (c.take ne).countP (fun s => decide (e.getD k ⊤ < s))
            + (c.drop ne).countP (fun s => decide (e.getD k ⊤ < s)) := by
        rw [← List.countP_append, List.take_append_drop]
      have hge : ne ≤ c.countP (fun s => decide (e.getD k ⊤ < s)) := by
        rw [hsplit, htop]
        omega
      omega
    · have hle := List.countP_le_length (fun s => decide (e.getD k ⊤ < s)) (l := c)
      omega

open CoxModel in
theorem risk_set_end_index_bounds_witness :
    coxInit [(1 : Time), ⊤] [⊤, (3 : Time)]
      = .ok ⟨1, [(1 : Time), ⊤], [⊤, (3 : Time)], [1, 1], [1]⟩ ∧
    ([⊤, (3 : Time)] : List Time).length = ([(1 : Time), ⊤] : List Time).length ∧
    (∀ i, i < ([(1 : Time), ⊤] : List Time).length →
      [(1 : Time), ⊤].getD i ⊤ < ⊤ → [⊤, (3 : Time)].getD i ⊤ = ⊤) ∧
    ((⟨1, [(1 : Time), ⊤], [⊤, (3 : Time)], [1, 1], [1]⟩ :
        CoxState).risk_set_end_index.Chain' (fun a b => b ≤ a) ∧
      (∀ k, k < (⟨1, [(1 : Time), ⊤], [⊤, (3 : Time)], [1, 1], [1]⟩ :
          CoxState).risk_set_end_index.length →
        (((⟨1, [(1 : Time), ⊤], [⊤, (3 : Time)], [1, 1], [1]⟩ :
            CoxState).n_event : ℤ) - 1
          ≤ (⟨1, [(1 : Time), ⊤], [⊤, (3 : Time)], [1, 1], [1]⟩ :
            CoxState).risk_set_end_index.getD k 0 ∧
        (⟨1, [(1 : Time), ⊤], [⊤, (3 : Time)], [1, 1], [1]⟩ :
            CoxState).risk_set_end_index.getD k 0
          ≤ (([(1 : Time), ⊤] : List Time).length : ℤ) - 1))) :=
  ⟨by decide, by decide, by decide,
    risk_set_end_index_bounds [(1 : Time), ⊤] [⊤, (3 : Time)]
      ⟨1, [(1 : Time), ⊤], [⊤, (3 : Time)], [1, 1], [1]⟩
      (by decide) (by decide) (by decide)⟩

namespace ExpTiltedStableDist

theorem pyDiv_zero (a : ℝ) : pyDiv a 0 = .error .divisionByZero := by
  rw [pyDiv, if_pos rfl]

theorem pyDiv_ne_zero (a b : ℝ) (h : b ≠ 0) : pyDiv a b = .ok (a / b) := by
  rw [pyDiv, if_neg h]

theorem pyPow_pos (x y : ℝ) (h : 0 < x) : pyPow x y = .ok (.real (x ^ y)) := by
  rw [pyPow, if_pos h]

theorem pyPow_zero_pos (y : ℝ) (h : 0 < y) : pyPow 0 y = .ok (.real 0) := by
  rw [pyPow, if_neg (lt_irrefl 0), if_pos rfl, if_pos h]

theorem pyPow_zero_neg (y : ℝ) (h : y < 0) : pyPow 0 y = .error .divisionByZero := by
  rw [pyPow, if_neg (lt_irrefl 0), if_pos rfl, if_neg (not_lt.mpr (le_of_lt h)),
    if_neg (ne_of_lt h)]

theorem precompute_error_of_gamma_neg (alpha lam v : ℝ) (h0 : alpha ≠ 0)
    (hv : pyPow lam alpha = .ok (.real v)) (hg : v * alpha * (1 - alpha) < 0) :
    precompute alpha lam = .error .mathDomainError := by
  have h1 : pyDiv (1 - alpha) alpha = .ok ((1 - alpha) / alpha) :=
    pyDiv_ne_zero _ _ h0
  have h3 : pySqrt (.real (v * alpha * (1 - alpha))) = .error .mathDomainError := by
    simp only [pySqrt]
    rw [if_pos hg]
  simp only [precompute, h1, hv, h3]

theorem precompute_error_of_gamma_zero (alpha lam v : ℝ) (h0 : alpha ≠ 0)
    (hv : pyPow lam alpha = .ok (.real v)) (hg : v * alpha * (1 - alpha) = 0) :
    precompute alpha lam = .error .divisionByZero := by
  have h1 : pyDiv (1 - alpha) alpha = .ok ((1 - alpha) / alpha) :=
    pyDiv_ne_zero _ _ h0
  have h3 : pySqrt (.real (v * alpha * (1 - alpha))) = .ok 0 := by
    simp only [pySqrt]
    rw [if_neg (by rw [hg]; exact lt_irrefl 0), hg, Real.sqrt_zero]
  simp only [precompute, h1, hv, h3, pyDiv_zero]

end ExpTiltedStableDist

open ExpTiltedStableDist in
/-- C6 amended: for every `α` outside `(0,1)` with `λ ≥ 0`, `rv` raises an
arithmetic exception (a `ZeroDivisionError` or a math-domain `ValueError`)
while precomputing the sampler constants, before any rejection loop runs —
there is no deliberate domain check.  (For `λ < 0` no such guarantee holds;
see the counterexample.) -/
theorem rv_bad_domain_errors (alpha lam : ℝ) (unif normal : ℕ → ℝ) (fuel : ℕ)
    (hlam : 0 ≤ lam) (halpha : alpha ≤ 0 ∨ 1 ≤ alpha) :
    ∃ err, rv alpha lam unif normal fuel = .error err := by
  suffices h : ∃ err, precompute alpha lam = .error err by
    obtain ⟨err, herr⟩ := h
    exact ⟨err, by rw [rv, herr]⟩
  by_cases h0 : alpha = 0
  · exact ⟨.divisionByZero, by simp only [precompute, h0, pyDiv_zero]⟩
  rcases halpha with hle | hge
  · have hlt : alpha < 0 := lt_of_le_of_ne hle h0
    rcases eq_or_lt_of_le hlam with h0l | hpos
    · refine ⟨.divisionByZero, ?_⟩
      have h2 : pyPow lam alpha = .error .divisionByZero := by
        rw [← h0l]
        exact pyPow_zero_neg alpha hlt
      have h1 : pyDiv (1 - alpha) alpha = .ok ((1 - alpha) / alpha) :=
        pyDiv_ne_zero _ _ h0
      simp only [precompute, h1, h2]
    · have hv := pyPow_pos lam alpha hpos
      have hp : 0 < lam ^ alpha := Real.rpow_pos_of_pos hpos alpha
      refine ⟨.mathDomainError, precompute_error_of_gamma_neg alpha lam _ h0 hv ?_⟩
      exact mul_neg_of_neg_of_pos (mul_neg_of_pos_of_neg hp hlt) (by linarith)
  · rcases eq_or_lt_of_le hge with heq | hgt
    · obtain ⟨v, hv⟩ : ∃ v, pyPow lam alpha = .ok (.real v) := by
        rcases eq_or_lt_of_le hlam with h0l | hpos
        · refine ⟨0, ?_⟩
          rw [← h0l]
          exact pyPow_zero_pos alpha (by linarith)
        · exact ⟨lam ^ alpha, pyPow_pos lam alpha hpos⟩
      refine ⟨.divisionByZero, precompute_error_of_gamma_zero alpha lam v h0 hv ?_⟩
      rw [← heq]
      ring
    · rcases eq_or_lt_of_le hlam with h0l | hpos
      · have hv : pyPow lam alpha = .ok (.real 0) := by
          rw [← h0l]
          exact pyPow_zero_pos alpha (by linarith)
        exact ⟨.divisionByZero,
          precompute_error_of_gamma_zero alpha lam 0 h0 hv (by ring)⟩
      · have hv := pyPow_pos lam alpha hpos
        have hp := Real.rpow_pos_of_pos hpos alpha
        refine ⟨.mathDomainError, precompute_error_of_gamma_neg alpha lam _ h0 hv ?_⟩
        exact mul_neg_of_pos_of_neg (mul_pos hp (by linarith)) (by linarith)

open ExpTiltedStableDist in
theorem rv_bad_domain_errors_witness :
    ((0 : ℝ) ≤ 0) ∧ ((2 : ℝ) ≤ 0 ∨ (1 : ℝ) ≤ 2) ∧
    (∃ err, rv 2 0 (fun _ => 1/2) (fun _ => 0) 5 = .error err) :=
  ⟨le_refl 0, Or.inr (by norm_num),
    rv_bad_domain_errors 2 0 (fun _ => 1/2) (fun _ => 0) 5 (le_refl 0)
      (Or.inr (by norm_num))⟩

open ExpTiltedStableDist in
/-- C6, counterexample: `α = -1` is not in `(0,1)` and `λ = -2 < 0`, yet the
precomputation of constants succeeds (`λ^α = -1/2` is a real float for an
integer `α`, and `γ = 1 > 0`), so `rv` enters its rejection loops instead of
failing fast with a domain error. -/
theorem rv_domain_check_counterexample :
    ((-1 : ℝ) ≤ 0) ∧ ((-2 : ℝ) < 0) ∧ (precompute (-1) (-2)).isOk = true := by
  refine ⟨by norm_num, by norm_num, ?_⟩
  have h1 : pyDiv (1 - (-1 : ℝ)) (-1) = .ok ((1 - (-1 : ℝ)) / (-1)) :=
    pyDiv_ne_zero _ _ (by norm_num)
  have hfl : (⌊(-1 : ℝ)⌋ : ℝ) = -1 := by norm_num
  have h2 : pyPow (-2 : ℝ) (-1) = .ok (.real ((-2 : ℝ) ^ (⌊(-1 : ℝ)⌋))) := by
    rw [pyPow, if_neg (by norm_num), if_neg (by norm_num), if_pos hfl]
  have hgamma : ((-2 : ℝ) ^ (⌊(-1 : ℝ)⌋)) * (-1) * (1 - (-1 : ℝ)) = 1 := by
    have hfl2 : ⌊(-1 : ℝ)⌋ = -1 := by
      exact_mod_cast hfl
    rw [hfl2]
    norm_num
  have h3 : pySqrt (.real (((-2 : ℝ) ^ (⌊(-1 : ℝ)⌋)) * (-1) * (1 - (-1 : ℝ))))
      = .ok (Real.sqrt (((-2 : ℝ) ^ (⌊(-1 : ℝ)⌋)) * (-1) * (1 - (-1 : ℝ)))) := by
    simp only [pySqrt]
    rw [if_neg (by rw [hgamma]; norm_num)]
  have hsq : Real.sqrt (((-2 : ℝ) ^ (⌊(-1 : ℝ)⌋)) * (-1) * (1 - (-1 : ℝ))) = 1 := by
    rw [hgamma, Real.sqrt_one]
  simp only [precompute, h1, h2, h3]
  rw [pyDiv_ne_zero _ _ (by rw [hsq]; norm_num)]
  rfl

open ExpTiltedStableDist in
/-- C3 (refuting evidence): `rv` initializes `aug_accepted = False` once,
**before** the outer loop, and never resets it.  Hence whenever the outer
acceptance test fails after the first inner acceptance, the retry does not
run the inner loop at all: no draws are consumed by it and the previously
accepted auxiliary triple `(U, z, Z)` is reused verbatim for the next
candidate `X` — contradicting the claimed "restart from step 2 with a fresh
inner rejection loop".  In any state with `aug_accepted = true` (as holds on
every outer retry), the inner loop is the identity and the outer step
preserves `U`, `z`, `Z` and the flag. -/
theorem outer_retry_reuses_auxiliary_pair (alpha b : ℝ) (K : Consts)
    (unif normal : ℕ → ℝ) (fuel : ℕ) (s : LoopState)
    (h : s.aug_accepted = true) :
    inner_loop alpha K unif normal fuel s = s ∧
    (outer_step alpha b K unif normal fuel s).state.U = s.U ∧
    (outer_step alpha b K unif normal fuel s).state.z = s.z ∧
    (outer_step alpha b K unif normal fuel s).state.Z = s.Z ∧
    (outer_step alpha b K unif normal fuel s).state.aug_accepted = true := by
  have hskip : ∀ f, inner_loop alpha K unif normal f s = s := by
    intro f
    cases f with
    | zero => rfl
    | succ g => rw [inner_loop, if_pos h]
  refine ⟨hskip fuel, ?_, ?_, ?_, ?_⟩ <;> simp [outer_step, hskip, h]

open ExpTiltedStableDist in
theorem outer_retry_reuses_auxiliary_pair_witness :
    (({ uIdx := 0, nIdx := 0, aug_accepted := true, U := 3, z := 5, Z := 7 } :
        LoopState).aug_accepted = true) ∧
    (inner_loop (1/2) ⟨1, 1, 1, 1, 1, 1, 1, 1, 1, 1, 1, 1⟩ (fun _ => 1/2)
        (fun _ => 0) 2 ⟨0, 0, true, 3, 5, 7⟩ = ⟨0, 0, true, 3, 5, 7⟩ ∧
      (outer_step (1/2) 1 ⟨1, 1, 1, 1, 1, 1, 1, 1, 1, 1, 1, 1⟩ (fun _ => 1/2)
        (fun _ => 0) 2 ⟨0, 0, true, 3, 5, 7⟩).state.U = 3 ∧
      (outer_step (1/2) 1 ⟨1, 1, 1, 1, 1, 1, 1, 1, 1, 1, 1, 1⟩ (fun _ => 1/2)
        (fun _ => 0) 2 ⟨0, 0, true, 3, 5, 7⟩).state.z = 5 ∧
      (outer_step (1/2) 1 ⟨1, 1, 1, 1, 1, 1, 1, 1, 1, 1, 1, 1⟩ (fun _ => 1/2)
        (fun _ => 0) 2 ⟨0, 0, true, 3, 5, 7⟩).state.Z = 7 ∧
      (outer_step (1/2) 1 ⟨1, 1, 1, 1, 1, 1, 1, 1, 1, 1, 1, 1⟩ (fun _ => 1/2)
        (fun _ => 0) 2 ⟨0, 0, true, 3, 5, 7⟩).state.aug_accepted = true) :=
  ⟨rfl, outer_retry_reuses_auxiliary_pair (1/2) 1 ⟨1, 1, 1, 1, 1, 1, 1, 1, 1, 1, 1, 1⟩
    (fun _ => 1/2) (fun _ => 0) 2 ⟨0, 0, true, 3, 5, 7⟩ rfl⟩

namespace CoxModel

theorem getD_range' (n k d : ℕ) (h : k < n) : (List.range n).getD k d = k := by
  rw [List.getD_eq_getElem _ _ (by simpa using h), List.getElem_range]

theorem length_risk_set_end_index (e c : List Time) :
    (risk_set_end_index e c).length = n_event_init e := by
  rw [risk_set_end_index, List.length_map, List.length_take]
  have := n_event_init_le_length e
  omega

/-- For an accepted, consistent input, the `k`-th risk-set end index (cast to
`ℕ`, as numpy's nonnegative result) is in `[n_event - 1, n)` and
characterises risk-set membership: `j ≤ rsei[k] ↔ t_k < censoring_time[j]`. -/
theorem rseiN_char (e c : List Time)
    (hse : any_adjacent_decrease e = false)
    (hsc : any_adjacent_increase c = false)
    (hlen : c.length = e.length)
    (hcen : ∀ i, i < e.length → e.getD i ⊤ < ⊤ → c.getD i ⊤ = ⊤)
    (k : ℕ) (hk : k < n_event_init e) :
    n_event_init e ≤ ((risk_set_end_index e c).map Int.toNat).getD k 0 + 1 ∧
    ((risk_set_end_index e c).map Int.toNat).getD k 0 < e.length ∧
    (∀ j, j < e.length →
      (j ≤ ((risk_set_end_index e c).map Int.toNat).getD k 0 ↔
        e.getD k ⊤ < c.getD j ⊤)) := by
  have hesort : e.Chain' (· ≤ ·) := (any_adjacent_decrease_eq_false e).mp hse
  haveI : IsTrans Time (fun a b => b ≤ a) := ⟨fun a b c h1 h2 => le_trans h2 h1⟩
  have hcpair : c.Pairwise (fun a b => b ≤ a) :=
    List.chain'_iff_pairwise.mp ((any_adjacent_increase_eq_false c).mp hsc)
  have hnele : n_event_init e ≤ e.length := n_event_init_le_length e
  have hkel : k < e.length := lt_of_lt_of_le hk hnele
  have hklen : k < (e.take (n_event_init e)).length := by
    rw [List.length_take]
    omega
  have hzval : (risk_set_end_index e c).getD k 0
      = (c.countP (fun s => decide (e.getD k ⊤ < s)) : ℤ) - 1 := by
    rw [risk_set_end_index, getD_map' _ _ _ ⊤ _ hklen,
      getD_take' e _ k ⊤ hk hkel]
  have htop : ∀ i, i < n_event_init e → c.getD i ⊤ = ⊤ := fun i hi =>
    hcen i (by omega) ((event_time_finite_iff e hesort i (by omega)).mpr hi)
  have hcnt_ge : n_event_init e ≤ c.countP (fun s => decide (e.getD k ⊤ < s)) := by
    have h1 : n_event_init e - 1 < c.countP (fun s => decide (e.getD k ⊤ < s)) := by
      rw [lt_countP_censoring_iff c hcpair _ _ (by omega),
        htop (n_event_init e - 1) (by omega)]
      exact (event_time_finite_iff e hesort k hkel).mpr hk
    omega
  have hcnt_le : c.countP (fun s => decide (e.getD k ⊤ < s)) ≤ c.length :=
    List.countP_le_length _
  have hk2 : k < (risk_set_end_index e c).length := by
    rw [length_risk_set_end_index]
    exact hk
  have hnval : ((risk_set_end_index e c).map Int.toNat).getD k 0
      = c.countP (fun s => decide (e.getD k ⊤ < s)) - 1 := by
    rw [getD_map' Int.toNat _ _ 0 _ hk2, hzval]
    omega
  refine ⟨by rw [hnval]; omega, by rw [hnval]; omega, ?_⟩
  intro j hj
  rw [hnval]
  have hchar := lt_countP_censoring_iff c hcpair (e.getD k ⊤) j (by omega)
  constructor
  · intro hle
    exact hchar.mp (by omega)
  · intro hlt
    have := hchar.mpr hlt
    omega

/-- Under the characterization, the risk-set end indices are non-increasing. -/
theorem rseiN_anti (e c : List Time)
    (hse : any_adjacent_decrease e = false)
    (hsc : any_adjacent_increase c = false)
    (hlen : c.length = e.length)
    (hcen : ∀ i, i < e.length → e.getD i ⊤ < ⊤ → c.getD i ⊤ = ⊤)
    (k1 k2 : ℕ) (hk12 : k1 ≤ k2) (hk2 : k2 < n_event_init e) :
    ((risk_set_end_index e c).map Int.toNat).getD k2 0
      ≤ ((risk_set_end_index e c).map Int.toNat).getD k1 0 := by
  have hesort : e.Chain' (· ≤ ·) := (any_adjacent_decrease_eq_false e).mp hse
  have hepair : e.Pairwise (· ≤ ·) := List.chain'_iff_pairwise.mp hesort
  obtain ⟨hb1, hb2, hchar2⟩ := rseiN_char e c hse hsc hlen hcen k2 hk2
  obtain ⟨_, _, hchar1⟩ := rseiN_char e c hse hsc hlen hcen k1 (by omega)
  refine (hchar1 _ hb2).mpr ?_
  have hlt := (hchar2 _ hb2).mp (le_refl _)
  exact lt_of_le_of_lt
    (getD_mono_of_pairwise_le e ⊤ hepair hk12 (lt_of_lt_of_le hk2
      (n_event_init_le_length e))) hlt

/-- The `j`-th entry of `n_appearance_in_risk_set` counts exactly the events
`k < n_event` with `k ≤ j ≤ rsei[k]`, provided the finite event times are
strictly increasing and no censoring time equals an event time. -/
theorem nap_char (e c : List Time)
    (hse : any_adjacent_decrease e = false)
    (hsc : any_adjacent_increase c = false)
    (hlen : c.length = e.length)
    (hcen : ∀ i, i < e.length → e.getD i ⊤ < ⊤ → c.getD i ⊤ = ⊤)
    (hstrict : (e.take (n_event_init e)).Pairwise (· < ·))
    (hnotie : ∀ i k2, i < c.length → k2 < n_event_init e →
      c.getD i ⊤ ≠ e.getD k2 ⊤)
    (j : ℕ) (hj : j < e.length) (k : ℕ) :
    k < (count_risk_set_appearance e c).getD j 0 ↔
      k < n_event_init e ∧ k ≤ j ∧
        j ≤ ((risk_set_end_index e c).map Int.toNat).getD k 0 := by
  have hesort : e.Chain' (· ≤ ·) := (any_adjacent_decrease_eq_false e).mp hse
  have hepair : e.Pairwise (· ≤ ·) := List.chain'_iff_pairwise.mp hesort
  have hnele : n_event_init e ≤ e.length := n_event_init_le_length e
  have hjz : j < (e.zip c).length := by
    rw [List.length_zip]
    omega
  have hnapj : (count_risk_set_appearance e c).getD j 0
      = (e.filter (fun t => decide (t < ⊤))).countP
          (fun t => decide (t ≤ c.getD j ⊤) && decide (t ≤ e.getD j ⊤)) := by
    rw [count_risk_set_appearance, getD_map' _ _ _ (⊤, ⊤) _ hjz,
      getD_zip' e c j ⊤ ⊤ hj (by omega)]
  have hfilter : e.filter (fun t => decide (t < ⊤)) = e.take (n_event_init e) := by
    have h1 := filter_eq_take_countP (· ≤ ·) e (fun t => decide (t < ⊤)) hepair ?_
    · rw [← n_event_init_eq_countP] at h1
      exact h1
    · intro a b hab hb
      simp only [decide_eq_true_eq] at hb ⊢
      exact lt_of_le_of_lt hab hb
  have htake : e.take (n_event_init e)
      = (List.range (n_event_init e)).map (fun i => e.getD i ⊤) :=
    take_eq_map_range e ⊤ _ hnele
  have hcount : (count_risk_set_appearance e c).getD j 0
      = (List.range (n_event_init e)).countP
          (fun i => decide (e.getD i ⊤ ≤ c.getD j ⊤)
            && decide (e.getD i ⊤ ≤ e.getD j ⊤)) := by
    rw [hnapj, hfilter, htake, List.countP_map]
    rfl
  have hpoint : ∀ i, i < n_event_init e →
      ((decide (e.getD i ⊤ ≤ c.getD j ⊤)
          && decide (e.getD i ⊤ ≤ e.getD j ⊤)) = true ↔
        (i ≤ j ∧ j ≤ ((risk_set_end_index e c).map Int.toNat).getD i 0)) := by
    intro i hi
    obtain ⟨hbd1, hbd2, hchar⟩ := rseiN_char e c hse hsc hlen hcen i hi
    rw [Bool.and_eq_true, decide_eq_true_eq, decide_eq_true_eq]
    have hsub1 : e.getD i ⊤ ≤ c.getD j ⊤ ↔
        j ≤ ((risk_set_end_index e c).map Int.toNat).getD i 0 := by
      rw [hchar j hj]
      constructor
      · intro hle
        rcases lt_or_eq_of_le hle with hlt | heq
        · exact hlt
        · exact absurd heq.symm (hnotie j i (by omega) hi)
      · exact le_of_lt
    have hsub2 : e.getD i ⊤ ≤ e.getD j ⊤ ↔ i ≤ j := by
      rcases Nat.lt_or_ge j (n_event_init e) with hjne | hjne
      · constructor
        · intro hle
          by_contra hgt
          push_neg at hgt
          have hlt := getD_strict_of_pairwise_lt (e.take (n_event_init e)) ⊤
            hstrict hgt (by rw [List.length_take]; omega)
          rw [getD_take' e _ j ⊤ hjne (by omega),
            getD_take' e _ i ⊤ hi (by omega)] at hlt
          exact absurd hle (not_le.mpr hlt)
        · intro hij
          exact getD_mono_of_pairwise_le e ⊤ hepair hij hj
      · have hetop : e.getD j ⊤ = ⊤ := by
          rcases eq_or_lt_of_le (le_top : e.getD j ⊤ ≤ ⊤) with heq | hlt
          · exact heq
          · exact absurd ((event_time_finite_iff e hesort j hj).mp hlt)
              (by omega)
        rw [hetop]
        simp only [le_top, true_iff]
        omega
    rw [hsub1, hsub2]
    exact and_comm
  have hdc : ∀ a b : ℕ, a ≤ b → b < n_event_init e →
      (decide (e.getD b ⊤ ≤ c.getD j ⊤)
        && decide (e.getD b ⊤ ≤ e.getD j ⊤)) = true →
      (decide (e.getD a ⊤ ≤ c.getD j ⊤)
        && decide (e.getD a ⊤ ≤ e.getD j ⊤)) = true := by
    intro a b hab hb hpb
    have hmono : e.getD a ⊤ ≤ e.getD b ⊤ :=
      getD_mono_of_pairwise_le e ⊤ hepair hab (by omega)
    simp only [Bool.and_eq_true, decide_eq_true_eq] at hpb ⊢
    exact ⟨le_trans hmono hpb.1, le_trans hmono hpb.2⟩
  constructor
  · intro hklt
    have hcle : (count_risk_set_appearance e c).getD j 0 ≤ n_event_init e := by
      rw [hcount]
      have h2 := List.countP_le_length
        (fun i => decide (e.getD i ⊤ ≤ c.getD j ⊤)
          && decide (e.getD i ⊤ ≤ e.getD j ⊤))
        (l := List.range (n_event_init e))
      rw [List.length_range] at h2
      exact h2
    have hkne : k < n_event_init e := by omega
    rw [hcount] at hklt
    exact ⟨hkne, (hpoint k hkne).mp
      ((lt_countP_range_iff _ _ hdc k hkne).mp hklt)⟩
  · rintro ⟨hkne, hkj, hjr⟩
    rw [hcount]
    exact (lt_countP_range_iff _ _ hdc k hkne).mpr
      ((hpoint k hkne).mpr ⟨hkj, hjr⟩)

theorem zipWith_zero_id {α : Type} [Field α] (n : ℕ) (rows : List (List α))
    (idxs : List ℕ) (hlen : rows.length ≤ idxs.length)
    (hall : ∀ x ∈ idxs, n ≤ x + 1) :
    List.zipWith (fun r (i : ℕ) => if i + 1 < n then zeroRowCols r (i + 1) else r)
      rows idxs = rows := by
  induction rows generalizing idxs with
  | nil => simp
  | cons r rest ih =>
    cases idxs with
    | nil => exact absurd hlen (by simp)
    | cons i idxs2 =>
      rw [List.zipWith_cons_cons,
        if_neg (by have := hall i (List.mem_cons_self i idxs2); omega),
        ih idxs2 (by have := hlen; simp at this; omega)
          (fun x hx => hall x (List.mem_cons_of_mem i hx))]

/-- The bottom-up zeroing loop with a non-decreasing (reversed) index list is
the pointwise conditional zeroing: once the break fires, all remaining
conditions are false anyway. -/
theorem hm_zero_rev_eq {α : Type} [Field α] (n : ℕ) (rows : List (List α))
    (idxs : List ℕ) (hlen : rows.length = idxs.length)
    (hmono : idxs.Pairwise (· ≤ ·)) :
    hm_zero_rev n rows idxs
      = List.zipWith (fun r (i : ℕ) => if i + 1 < n then zeroRowCols r (i + 1) else r)
          rows idxs := by
  induction rows generalizing idxs with
  | nil => cases idxs <;> rfl
  | cons r rest ih =>
    cases idxs with
    | nil => exact absurd hlen (by simp)
    | cons i idxs2 =>
      rw [List.pairwise_cons] at hmono
      obtain ⟨hhead, htail⟩ := hmono
      rw [hm_zero_rev]
      by_cases hbreak : n ≤ i + 1
      · rw [if_pos hbreak, List.zipWith_cons_cons, if_neg (by omega)]
        refine congrArg (r :: ·) ?_
        exact (zipWith_zero_id n rest idxs2
          (by have := hlen; simp at this; omega)
          (fun x hx => by have := hhead x hx; omega)).symm
      · rw [if_neg hbreak, List.zipWith_cons_cons, if_pos (by omega)]
        refine congrArg (zeroRowCols r (i + 1) :: ·) ?_
        exact ih idxs2 (by have := hlen; simp at this; omega) htail

theorem pairwise_of_getD_anti {β : Type} [Preorder β] (l : List β) (d : β)
    (h : ∀ a b : ℕ, a ≤ b → b < l.length → l.getD b d ≤ l.getD a d) :
    l.Pairwise (fun x y => y ≤ x) := by
  rw [List.pairwise_iff_get]
  intro i j hij
  have h2 := h i j (le_of_lt hij) j.isLt
  rw [List.getD_eq_getElem _ _ i.isLt, List.getD_eq_getElem _ _ j.isLt] at h2
  simpa [List.get_eq_getElem] using h2

theorem length_hm_zero_rev {α : Type} [Field α] (n : ℕ) (rows : List (List α))
    (idxs : List ℕ) : (hm_zero_rev n rows idxs).length = rows.length := by
  induction rows generalizing idxs with
  | nil => cases idxs <;> rfl
  | cons r rest ih =>
    cases idxs with
    | nil => rfl
    | cons i idxs2 =>
      rw [hm_zero_rev]
      by_cases hbreak : n ≤ i + 1
      · rw [if_pos hbreak]
      · rw [if_neg hbreak]
        simp [ih idxs2]

theorem hm_compute_matrix_length {α : Type} [Field α] (h s : List α)
    (rsei : List ℕ) :
    (hm_compute_matrix h s rsei).length = s.length := by
  simp only [hm_compute_matrix]
  rw [List.length_reverse, length_hm_zero_rev, List.length_reverse,
    List.length_map, List.length_range]

/-- The `k`-th row of `compute_matrix`: the `triu` outer-product row, with the
columns past `rsei[k]` zeroed whenever any survive. -/
theorem hm_compute_matrix_row {α : Type} [Field α] (h s : List α)
    (rsei : List ℕ) (hlen : rsei.length = s.length)
    (hmono : rsei.Pairwise (fun a b => b ≤ a)) (k : ℕ) (hk : k < s.length) :
    (hm_compute_matrix h s rsei).getD k []
      = if rsei.getD k 0 + 1 < h.length then
          zeroRowCols ((List.range h.length).map
            (fun j => if k ≤ j then (s.getD k 0)⁻¹ * h.getD j 0 else 0))
            (rsei.getD k 0 + 1)
        else (List.range h.length).map
            (fun j => if k ≤ j then (s.getD k 0)⁻¹ * h.getD j 0 else 0) := by
  simp only [hm_compute_matrix]
  set base := (List.range s.length).map (fun k2 =>
    (List.range h.length).map
      (fun j => if k2 ≤ j then (s.getD k2 0)⁻¹ * h.getD j 0 else 0)) with hbase
  have hbl : base.length = s.length := by
    rw [hbase, List.length_map, List.length_range]
  have hrevmono : rsei.reverse.Pairwise (· ≤ ·) := by
    rw [List.pairwise_reverse]
    exact hmono
  rw [hm_zero_rev_eq h.length base.reverse rsei.reverse
    (by rw [List.length_reverse, List.length_reverse, hbl, hlen]) hrevmono]
  have hzl : (List.zipWith
      (fun r (i : ℕ) => if i + 1 < h.length then zeroRowCols r (i + 1) else r)
      base.reverse rsei.reverse).length = s.length := by
    rw [List.length_zipWith, List.length_reverse, List.length_reverse, hbl, hlen]
    omega
  rw [getD_reverse' _ _ k (by rw [hzl]; exact hk), hzl]
  rw [getD_zipWith' _ _ _ (s.length - 1 - k) [] 0 []
    (by rw [List.length_reverse, hbl]; omega)
    (by rw [List.length_reverse, hlen]; omega)]
  rw [getD_reverse' base [] (s.length - 1 - k) (by rw [hbl]; omega),
    getD_reverse' rsei 0 (s.length - 1 - k) (by rw [hlen]; omega), hbl, hlen]
  have hidx : s.length - 1 - (s.length - 1 - k) = k := by omega
  rw [hidx]
  have hrow : base.getD k [] = (List.range h.length).map
      (fun j => if k ≤ j then (s.getD k 0)⁻¹ * h.getD j 0 else 0) := by
    rw [hbase, getD_map' _ _ _ 0 _ (by rw [List.length_range]; exact hk),
      getD_range' _ _ _ hk]
  rw [hrow]

theorem length_zeroRowCols {α : Type} [Field α] (r : List α) (j0 : ℕ)
    (h : j0 ≤ r.length) : (zeroRowCols r j0).length = r.length := by
  rw [zeroRowCols, List.length_append, List.length_take, List.length_replicate]
  omega

theorem hm_compute_matrix_row_length {α : Type} [Field α] (h s : List α)
    (rsei : List ℕ) (hlen : rsei.length = s.length)
    (hmono : rsei.Pairwise (fun a b => b ≤ a)) (k : ℕ) (hk : k < s.length) :
    ((hm_compute_matrix h s rsei).getD k []).length = h.length := by
  rw [hm_compute_matrix_row h s rsei hlen hmono k hk]
  by_cases hz : rsei.getD k 0 + 1 < h.length
  · rw [if_pos hz, length_zeroRowCols _ _
      (by rw [List.length_map, List.length_range]; omega),
      List.length_map, List.length_range]
  · rw [if_neg hz, List.length_map, List.length_range]

theorem list_eq_of_getD {β : Type} (l1 l2 : List β) (d : β)
    (hlen : l1.length = l2.length)
    (h : ∀ i, i < l1.length → l1.getD i d = l2.getD i d) : l1 = l2 := by
  refine List.ext_getElem hlen ?_
  intro i h1 h2
  have h3 := h i h1
  rw [List.getD_eq_getElem _ _ h1, List.getD_eq_getElem _ _ h2] at h3
  exact h3

/-- Entry `(k, j)` of `compute_matrix`: `s[k]⁻¹ * h[j]` on the band
`k ≤ j ≤ rsei[k]`, and zero elsewhere. -/
theorem hm_compute_matrix_entry {α : Type} [Field α] (h s : List α)
    (rsei : List ℕ) (hlen : rsei.length = s.length)
    (hmono : rsei.Pairwise (fun a b => b ≤ a)) (k : ℕ) (hk : k < s.length)
    (j : ℕ) (hj : j < h.length) :
    ((hm_compute_matrix h s rsei).getD k []).getD j 0
      = if k ≤ j ∧ j ≤ rsei.getD k 0 then (s.getD k 0)⁻¹ * h.getD j 0
        else 0 := by
  rw [hm_compute_matrix_row h s rsei hlen hmono k hk]
  have hrowlen : ((List.range h.length).map
      (fun j2 => if k ≤ j2 then (s.getD k 0)⁻¹ * h.getD j2 0 else 0)).length
      = h.length := by
    rw [List.length_map, List.length_range]
  have hrowval : ∀ j2, j2 < h.length → ((List.range h.length).map
      (fun j3 => if k ≤ j3 then (s.getD k 0)⁻¹ * h.getD j3 0 else 0)).getD j2 0
      = if k ≤ j2 then (s.getD k 0)⁻¹ * h.getD j2 0 else 0 := by
    intro j2 hj2
    rw [getD_map' _ _ _ 0 _ (by rw [List.length_range]; exact hj2),
      getD_range' _ _ _ hj2]
  by_cases hz : rsei.getD k 0 + 1 < h.length
  · rw [if_pos hz, zeroRowCols]
    by_cases hjr : j ≤ rsei.getD k 0
    · rw [List.getD_append _ _ 0 j
        (by rw [List.length_take, hrowlen]; omega),
        getD_take' _ _ _ 0 (by omega) (by rw [hrowlen]; exact hj),
        hrowval j hj]
      by_cases hkj : k ≤ j
      · rw [if_pos hkj, if_pos ⟨hkj, hjr⟩]
      · rw [if_neg hkj, if_neg (by tauto)]
    · rw [List.getD_append_right _ _ 0 j
        (by rw [List.length_take, hrowlen]; omega)]
      rw [List.length_take, hrowlen]
      have hmin : min (rsei.getD k 0 + 1) h.length = rsei.getD k 0 + 1 := by
        omega
      rw [hmin, List.getD_eq_getElem _ _
        (by rw [List.length_replicate]; omega), List.getElem_replicate,
        if_neg (by omega)]
  · rw [if_neg hz, hrowval j hj]
    have hjr : j ≤ rsei.getD k 0 := by omega
    by_cases hkj : k ≤ j
    · rw [if_pos hkj, if_pos ⟨hkj, hjr⟩]
    · rw [if_neg hkj, if_neg (by tauto)]

/-- Abstract form of the implicit/explicit hazard-matrix agreement: under the
combinatorial facts provided by an accepted, strictly-increasing, tie-free
observation set (`hbounds`, `hmono`, `hnachar`, `hna1`), `dot`, `Tdot`, and
`sum_over_events` agree with the corresponding operations on the dense matrix
of `compute_matrix`. -/
theorem hm_ops_agree_abstract {α : Type} [Field α] (h v u : List α)
    (rsei nap : List ℕ) (n ne : ℕ)
    (hn : h.length = n) (hvn : v.length = n) (hun : u.length = ne)
    (hrl : rsei.length = ne) (hnl : nap.length = n) (hnen : ne ≤ n)
    (hbounds : ∀ k, k < ne → ne ≤ rsei.getD k 0 + 1 ∧ rsei.getD k 0 < n)
    (hmono : rsei.Pairwise (fun a b => b ≤ a))
    (hnachar : ∀ j, j < n → ∀ k, (k < nap.getD j 0 ↔
      k < ne ∧ k ≤ j ∧ j ≤ rsei.getD k 0))
    (hna1 : ∀ j, j < n → 1 ≤ nap.getD j 0) :
    hm_dot h (sum_over_risk_set h rsei) rsei v
      = matVec (hm_compute_matrix h (sum_over_risk_set h rsei) rsei) v ∧
    hm_Tdot h (sum_over_risk_set h rsei) nap u
      = matTVec (hm_compute_matrix h (sum_over_risk_set h rsei) rsei) u n ∧
    sum_over_events h (sum_over_risk_set h rsei) rsei nap
      = colSums (hm_compute_matrix h (sum_over_risk_set h rsei) rsei) n := by
  set s := sum_over_risk_set h rsei with hs
  set M := hm_compute_matrix h s rsei with hM
  have hslen : s.length = ne := by
    rw [hs, length_sum_over_risk_set h rsei (by rw [hrl, hn]; exact hnen), hrl]
  have hnaub : ∀ j, j < n → nap.getD j 0 ≤ ne := by
    intro j hj
    by_contra hc
    push_neg at hc
    have h3 := (hnachar j hj ne).mp hc
    omega
  have hMlen : M.length = ne := by
    rw [hM, hm_compute_matrix_length, hslen]
  have hrowlen : ∀ k, k < ne → (M.getD k []).length = n := by
    intro k hk
    rw [hM, hm_compute_matrix_row_length h s rsei (by rw [hrl, hslen]) hmono k
      (by rw [hslen]; exact hk), hn]
  have hentry : ∀ k, k < ne → ∀ j, j < n →
      (M.getD k []).getD j 0
        = if k ≤ j ∧ j ≤ rsei.getD k 0 then (s.getD k 0)⁻¹ * h.getD j 0
          else 0 := by
    intro k hk j hj
    rw [hM, hm_compute_matrix_entry h s rsei (by rw [hrl, hslen]) hmono k
      (by rw [hslen]; exact hk) j (by rw [hn]; exact hj)]
  have hfilter_eq : ∀ j, j < n → Finset.range (nap.getD j 0)
      = (Finset.range ne).filter (fun k => k ≤ j ∧ j ≤ rsei.getD k 0) := by
    intro j hj
    ext k
    simp only [Finset.mem_filter, Finset.mem_range]
    exact hnachar j hj k
  clear_value s M
  clear hs hM
  refine ⟨?_, ?_, ?_⟩
  · -- dot agrees with M · v
    have hhv : (List.zipWith (· * ·) h v).length = n := by
      rw [List.length_zipWith, hn, hvn, Nat.min_self]
    have hsv : (sum_over_risk_set (List.zipWith (· * ·) h v) rsei).length
        = ne := by
      rw [length_sum_over_risk_set _ _ (by rw [hrl, hhv]; exact hnen), hrl]
    have hL1 : (hm_dot h s rsei v).length = ne := by
      rw [hm_dot, List.length_zipWith, hsv, hslen, Nat.min_self]
    have hR1 : (matVec M v).length = ne := by
      rw [matVec, List.length_map, hMlen]
    refine list_eq_of_getD _ _ 0 (by rw [hL1, hR1]) ?_
    intro k hklt
    rw [hL1] at hklt
    have hk_s : k < s.length := by
      rw [hslen]
      exact hklt
    have hk_sv : k < (sum_over_risk_set (List.zipWith (· * ·) h v) rsei).length := by
      rw [hsv]
      exact hklt
    rw [hm_dot, getD_zipWith' _ _ _ k 0 0 0 hk_s hk_sv]
    rw [getD_sum_over_risk_set _ _ k (by rw [hrl]; exact hklt)
      (by rw [hrl]; exact (hbounds k hklt).1)
      (by rw [hhv]; have := (hbounds k hklt).2; omega)]
    rw [matVec, getD_map' (fun r => (List.zipWith (· * ·) r v).sum) M k [] 0
      (by rw [hMlen]; exact hklt)]
    rw [sum_zipWith (· * ·) (M.getD k []) v 0 0, hrowlen k hklt, hvn,
      Nat.min_self]
    have hsum1 : ∑ i ∈ Finset.Icc k (rsei.getD k 0),
        (List.zipWith (· * ·) h v).getD i 0
        = ∑ i ∈ Finset.Icc k (rsei.getD k 0), h.getD i 0 * v.getD i 0 := by
      refine Finset.sum_congr rfl ?_
      intro i hi
      rw [Finset.mem_Icc] at hi
      exact getD_zipWith' (· * ·) h v i 0 0 0
        (by rw [hn]; have := (hbounds k hklt).2; omega)
        (by rw [hvn]; have := (hbounds k hklt).2; omega)
    have hfe1 : Finset.Icc k (rsei.getD k 0)
        = (Finset.range n).filter
            (fun j => k ≤ j ∧ j ≤ rsei.getD k 0) := by
      ext j
      simp only [Finset.mem_Icc, Finset.mem_filter, Finset.mem_range]
      have := (hbounds k hklt).2
      constructor
      · intro hj2
        exact ⟨by omega, hj2⟩
      · intro hj2
        exact hj2.2
    have hsum2 : ∑ j ∈ Finset.range n,
        (M.getD k []).getD j 0 * v.getD j 0
        = ∑ j ∈ Finset.Icc k (rsei.getD k 0),
            (s.getD k 0)⁻¹ * h.getD j 0 * v.getD j 0 := by
      rw [hfe1, Finset.sum_filter]
      refine Finset.sum_congr rfl ?_
      intro j hj
      rw [Finset.mem_range] at hj
      rw [hentry k hklt j hj]
      by_cases hc : k ≤ j ∧ j ≤ rsei.getD k 0
      · rw [if_pos hc, if_pos hc]
      · rw [if_neg hc, if_neg hc, zero_mul]
    rw [hsum1, hsum2, Finset.mul_sum]
    refine Finset.sum_congr rfl ?_
    intro j hj
    ring
  · -- Tdot agrees with Mᵗ · u
    have hpiplen : (List.zipWith (fun sk uk => sk⁻¹ * uk) s u).length = ne := by
      rw [List.length_zipWith, hslen, hun, Nat.min_self]
    simp only [hm_Tdot]
    refine list_eq_of_getD _ _ 0 ?_ ?_
    · rw [List.length_zipWith, hn, hnl, Nat.min_self, matTVec,
        List.length_map, List.length_range]
    · intro j hjlt
      have hjn : j < n := by
        rw [List.length_zipWith, hn, hnl, Nat.min_self] at hjlt
        exact hjlt
      have hj_h : j < h.length := by
        rw [hn]
        exact hjn
      have hj_na : j < nap.length := by
        rw [hnl]
        exact hjn
      rw [getD_zipWith' _ _ _ j 0 0 0 hj_h hj_na]
      have hnaj1 := hna1 j hjn
      have hnajle := hnaub j hjn
      have hcums : (np_cumsum (List.zipWith (fun sk uk => sk⁻¹ * uk) s u)).getD
          (nap.getD j 0 - 1) 0
          = ∑ i ∈ Finset.range (nap.getD j 0),
              (s.getD i 0)⁻¹ * u.getD i 0 := by
        rw [getD_np_cumsum _ _ (by rw [hpiplen]; omega), sum_take_eq_range_sum]
        have hidx : nap.getD j 0 - 1 + 1 = nap.getD j 0 := by omega
        rw [hidx]
        refine Finset.sum_congr rfl ?_
        intro i hi
        rw [Finset.mem_range] at hi
        exact getD_zipWith' _ s u i 0 0 0 (by rw [hslen]; omega)
          (by rw [hun]; omega)
      rw [hcums]
      rw [matTVec, getD_map'
        (fun j2 => (List.zipWith (fun r uk => r.getD j2 0 * uk) M u).sum)
        (List.range n) j 0 0 (by rw [List.length_range]; exact hjn),
        getD_range' _ _ _ hjn]
      rw [sum_zipWith _ M u [] 0, hMlen, hun, Nat.min_self]
      have hsum4 : ∑ k ∈ Finset.range ne,
          (M.getD k []).getD j 0 * u.getD k 0
          = ∑ k ∈ Finset.range (nap.getD j 0),
              (s.getD k 0)⁻¹ * h.getD j 0 * u.getD k 0 := by
        rw [hfilter_eq j hjn, Finset.sum_filter]
        refine Finset.sum_congr rfl ?_
        intro k hk
        rw [Finset.mem_range] at hk
        rw [hentry k hk j hjn]
        by_cases hc : k ≤ j ∧ j ≤ rsei.getD k 0
        · rw [if_pos hc, if_pos hc]
        · rw [if_neg hc, if_neg hc, zero_mul]
      rw [hsum4, Finset.mul_sum]
      refine Finset.sum_congr rfl ?_
      intro k hk
      ring
  · -- sum_over_events agrees with the column sums of M
    have hifF : ¬(rsei.getD 0 0 + 1 < h.length) := by
      rw [hn]
      rcases Nat.eq_zero_or_pos n with h0 | hp2
      · omega
      · have h1 := hna1 (n - 1) (by omega)
        have h2 := (hnachar (n - 1) (by omega) 0).mp (by omega)
        omega
    simp only [sum_over_events]
    rw [if_neg hifF]
    refine list_eq_of_getD _ _ 0 ?_ ?_
    · rw [List.length_zipWith, hnl, hn, Nat.min_self, colSums,
        List.length_map, List.length_range]
    · intro j hjlt
      have hjn : j < n := by
        rw [List.length_zipWith, hnl, hn, Nat.min_self] at hjlt
        exact hjlt
      have hj_na : j < nap.length := by
        rw [hnl]
        exact hjn
      have hj_h : j < h.length := by
        rw [hn]
        exact hjn
      rw [getD_zipWith' _ _ _ j 0 0 0 hj_na hj_h]
      have hnaj1 := hna1 j hjn
      have hnajle := hnaub j hjn
      have hcums : (np_cumsum (s.map (fun x => x⁻¹))).getD (nap.getD j 0 - 1) 0
          = ∑ i ∈ Finset.range (nap.getD j 0), (s.getD i 0)⁻¹ := by
        rw [getD_np_cumsum _ _ (by rw [List.length_map, hslen]; omega),
          sum_take_eq_range_sum]
        have hidx : nap.getD j 0 - 1 + 1 = nap.getD j 0 := by omega
        rw [hidx]
        refine Finset.sum_congr rfl ?_
        intro i hi
        rw [Finset.mem_range] at hi
        exact getD_map' (fun x => x⁻¹) s i 0 0 (by rw [hslen]; omega)
      rw [hcums]
      rw [colSums, getD_map'
        (fun j2 => (M.map (fun r => r.getD j2 0)).sum)
        (List.range n) j 0 0 (by rw [List.length_range]; exact hjn),
        getD_range' _ _ _ hjn]
      have hMsum : (M.map (fun r => r.getD j 0)).sum
          = ∑ k ∈ Finset.range ne, (M.getD k []).getD j 0 := by
        conv_lhs => rw [self_eq_map_getD_range M []]
        rw [List.map_map, sum_list_map_range, hMlen]
        rfl
      rw [hMsum]
      have hsum3 : ∑ k ∈ Finset.range ne, (M.getD k []).getD j 0
          = ∑ k ∈ Finset.range (nap.getD j 0),
              (s.getD k 0)⁻¹ * h.getD j 0 := by
        rw [hfilter_eq j hjn, Finset.sum_filter]
        refine Finset.sum_congr rfl ?_
        intro k hk
        rw [Finset.mem_range] at hk
        rw [hentry k hk j hjn]
      rw [hsum3, Finset.sum_mul]

end CoxModel

open CoxModel in
/-- C1, counterexample: `event_time = [1, 1]` (a tie), `censoring_time =
[∞, ∞]` is a valid sorted observation set (consistent indicators, accepted by
the constructor) and `hazard_increase = [1, 1]` is positive, yet
`sum_over_events()` is `[3/2, 3/2]` while the column sums of
`compute_matrix()` are `[1/2, 3/2]`: the time-based `n_appearance_in_risk_set`
counts the tied event for both individuals, while the `triu` of the explicit
matrix does not. -/
theorem hazard_matrix_ops_counterexample :
    (coxInit [(1 : Time), 1] ([⊤, ⊤] : List Time)).isOk = true ∧
    (∀ p ∈ ([(1 : Time), 1].zip ([⊤, ⊤] : List Time)), (p.1 = ⊤ ↔ p.2 < ⊤)) ∧
    (∀ x ∈ ([1, 1] : List ℚ), 0 < x) ∧
    sum_over_events ([1, 1] : List ℚ)
        (sum_over_risk_set [1, 1]
          ((risk_set_end_index [(1 : Time), 1] ([⊤, ⊤] : List Time)).map Int.toNat))
        ((risk_set_end_index [(1 : Time), 1] ([⊤, ⊤] : List Time)).map Int.toNat)
        (count_risk_set_appearance [(1 : Time), 1] ([⊤, ⊤] : List Time))
      ≠ colSums (hm_compute_matrix ([1, 1] : List ℚ)
          (sum_over_risk_set [1, 1]
            ((risk_set_end_index [(1 : Time), 1] ([⊤, ⊤] : List Time)).map Int.toNat))
          ((risk_set_end_index [(1 : Time), 1] ([⊤, ⊤] : List Time)).map Int.toNat)) 2 := by
  refine ⟨by decide, by decide, by decide, ?_⟩
  have h1 : (risk_set_end_index [(1 : Time), 1] ([⊤, ⊤] : List Time)).map Int.toNat
      = [1, 1] := by decide
  have h2 : count_risk_set_appearance [(1 : Time), 1] ([⊤, ⊤] : List Time)
      = [2, 2] := by decide
  have h3 : sum_over_risk_set ([1, 1] : List ℚ) [1, 1] = [2, 1] := by
    simp [sum_over_risk_set, np_cumsum, np_reverse_cumsum]
    norm_num
  rw [h1, h2, h3]
  have hr2 : List.range 2 = [0, 1] := by decide
  simp only [sum_over_events, np_cumsum, hm_compute_matrix, hm_zero_rev,
    zeroRowCols, colSums, hr2, List.map_cons, List.map_nil, List.length_cons,
    List.length_nil, List.zipWith_cons_cons, List.zipWith_nil_right,
    List.zipWith_nil_left, List.reverse_cons, List.reverse_nil, List.nil_append,
    List.cons_append, List.getD_cons_zero, List.getD_cons_succ, List.sum_cons,
    List.sum_nil, List.take_succ_cons, List.take_zero, List.replicate]
  norm_num

open CoxModel in
/-- C1, amended: for every observation set accepted by the constructor with
consistent censoring indicators, strictly increasing finite event times, and
no censoring time equal to an event time, and every hazard-increase vector of
the right length, the implicit-matrix operations agree with the explicit
matrix of `compute_matrix`: `dot(v) = M·v` for every `v` of length `n`,
`Tdot(u) = Mᵗ·u` for every `u` of length `n_event`, and `sum_over_events()`
equals the column sums of `M`. -/
theorem hazard_matrix_ops_agree (e c : List Time) (st : CoxState)
    (hok : coxInit e c = .ok st)
    (hlen : c.length = e.length)
    (hcons : censoring_consistent e c = true)
    (hstrict : (e.take (n_event_init e)).Chain' (· < ·))
    (hnotie : ∀ i k2, i < c.length → k2 < n_event_init e →
      c.getD i ⊤ ≠ e.getD k2 ⊤)
    (h v u : List ℚ) (hh : h.length = e.length) (_hpos : ∀ x ∈ h, 0 < x)
    (hvl : v.length = e.length) (hul : u.length = n_event_init e) :
    hm_dot h (sum_over_risk_set h (st.risk_set_end_index.map Int.toNat))
        (st.risk_set_end_index.map Int.toNat) v
      = matVec (hm_compute_matrix h
          (sum_over_risk_set h (st.risk_set_end_index.map Int.toNat))
          (st.risk_set_end_index.map Int.toNat)) v ∧
    hm_Tdot h (sum_over_risk_set h (st.risk_set_end_index.map Int.toNat))
        st.n_appearance_in_risk_set u
      = matTVec (hm_compute_matrix h
          (sum_over_risk_set h (st.risk_set_end_index.map Int.toNat))
          (st.risk_set_end_index.map Int.toNat)) u e.length ∧
    sum_over_events h
        (sum_over_risk_set h (st.risk_set_end_index.map Int.toNat))
        (st.risk_set_end_index.map Int.toNat) st.n_appearance_in_risk_set
      = colSums (hm_compute_matrix h
          (sum_over_risk_set h (st.risk_set_end_index.map Int.toNat))
          (st.risk_set_end_index.map Int.toNat)) e.length := by
  obtain ⟨hse, hsc, hall, hst⟩ := (coxInit_ok_iff e c st).mp hok
  have hrse : st.risk_set_end_index = risk_set_end_index e c := by rw [hst]
  have hnap2 : st.n_appearance_in_risk_set = count_risk_set_appearance e c := by
    rw [hst]
  rw [hrse, hnap2]
  have hnele : n_event_init e ≤ e.length := n_event_init_le_length e
  have hcen : ∀ i, i < e.length → e.getD i ⊤ < ⊤ → c.getD i ⊤ = ⊤ := by
    intro i hi hfin
    have hiz : i < (e.zip c).length := by
      rw [List.length_zip]
      omega
    have hp := (censoring_consistent_iff e c).mp hcons _ (List.get_mem _ _ hiz)
    rw [List.get_eq_getElem, List.getElem_zip] at hp
    rw [← List.getD_eq_getElem e ⊤ (show i < e.length by omega),
      ← List.getD_eq_getElem c ⊤ (show i < c.length by omega)] at hp
    have hne2 := mt hp.mpr hfin.ne
    rcases eq_or_lt_of_le (le_top : c.getD i ⊤ ≤ ⊤) with heq | hlt2
    · exact heq
    · exact absurd hlt2 hne2
  have hstrictP : (e.take (n_event_init e)).Pairwise (· < ·) :=
    List.chain'_iff_pairwise.mp hstrict
  have hrNlen : ((risk_set_end_index e c).map Int.toNat).length
      = n_event_init e := by
    rw [List.length_map, length_risk_set_end_index]
  have hnalen : (count_risk_set_appearance e c).length = e.length := by
    rw [count_risk_set_appearance, List.length_map, List.length_zip, hlen,
      Nat.min_self]
  have hbounds : ∀ k, k < n_event_init e →
      n_event_init e ≤ ((risk_set_end_index e c).map Int.toNat).getD k 0 + 1 ∧
      ((risk_set_end_index e c).map Int.toNat).getD k 0 < e.length := by
    intro k hk
    obtain ⟨h1, h2, _⟩ := rseiN_char e c hse hsc hlen hcen k hk
    exact ⟨h1, h2⟩
  have hmono : ((risk_set_end_index e c).map Int.toNat).Pairwise
      (fun a b => b ≤ a) := by
    refine pairwise_of_getD_anti _ 0 ?_
    intro a b hab hb
    rw [hrNlen] at hb
    exact rseiN_anti e c hse hsc hlen hcen a b hab hb
  have hna1 : ∀ j, j < e.length →
      1 ≤ (count_risk_set_appearance e c).getD j 0 := by
    intro j hj
    have hjn2 : j < (count_risk_set_appearance e c).length := by
      rw [hnalen]
      exact hj
    have hmem : (count_risk_set_appearance e c).getD j 0
        ∈ count_risk_set_appearance e c := by
      rw [List.getD_eq_getElem _ _ hjn2]
      exact List.getElem_mem hjn2
    have h3 := List.all_eq_true.mp hall _ hmem
    simpa using h3
  exact hm_ops_agree_abstract h v u
    ((risk_set_end_index e c).map Int.toNat) (count_risk_set_appearance e c)
    e.length (n_event_init e) hh hvl hul hrNlen hnalen hnele hbounds hmono
    (fun j hj k => nap_char e c hse hsc hlen hcen hstrictP hnotie j hj k) hna1

open CoxModel in
theorem hazard_matrix_ops_agree_witness :
    coxInit [(1 : Time), 2] ([⊤, ⊤] : List Time)
      = .ok { n_event := 2, event_time := [1, 2], censoring_time := [⊤, ⊤],
              n_appearance_in_risk_set := [1, 2],
              risk_set_end_index := [1, 1] } ∧
    (hm_dot ([1, 1] : List ℚ) (sum_over_risk_set [1, 1] ([1, 1] : List ℕ))
          ([1, 1] : List ℕ) [1, 1]
        = matVec (hm_compute_matrix ([1, 1] : List ℚ)
            (sum_over_risk_set [1, 1] ([1, 1] : List ℕ))
            ([1, 1] : List ℕ)) [1, 1] ∧
      hm_Tdot ([1, 1] : List ℚ) (sum_over_risk_set [1, 1] ([1, 1] : List ℕ))
          ([1, 2] : List ℕ) [1, 1]
        = matTVec (hm_compute_matrix ([1, 1] : List ℚ)
            (sum_over_risk_set [1, 1] ([1, 1] : List ℕ))
            ([1, 1] : List ℕ)) [1, 1] 2 ∧
      sum_over_events ([1, 1] : List ℚ)
          (sum_over_risk_set [1, 1] ([1, 1] : List ℕ))
          ([1, 1] : List ℕ) ([1, 2] : List ℕ)
        = colSums (hm_compute_matrix ([1, 1] : List ℚ)
            (sum_over_risk_set [1, 1] ([1, 1] : List ℕ))
            ([1, 1] : List ℕ)) 2) :=
  ⟨by decide,
    hazard_matrix_ops_agree [(1 : Time), 2] [⊤, ⊤]
      { n_event := 2, event_time := [1, 2], censoring_time := [⊤, ⊤],
        n_appearance_in_risk_set := [1, 2], risk_set_end_index := [1, 1] }
      (by decide) rfl (by decide)
      (List.chain'_cons.mpr ⟨by decide, List.chain'_singleton _⟩)
      (by
        intro i k2 hi hk2
        have h2 : n_event_init [(1 : Time), 2] = 2 := rfl
        rw [h2] at hk2
        have h3 : i < 2 := by simpa using hi
        interval_cases i <;> interval_cases k2 <;> decide)
      [1, 1] [1, 1] [1, 1] rfl (by decide) rfl (by decide)⟩

end BayesBridge
